import Mathlib

/-!
Verification of the syncer repository's state tracker (`src/server.h`) and
patch-operation router (`src/include/patch_op_router.h`) against its
natural-language specification.

The two source files are translated directly.  The generic JSON
encode/decode/diff/apply machinery (nlohmann `json.hpp`) is not part of the
repository's `src/` tree; the spec treats it as a given external capability
("the generic JSON encode/decode/diff/apply machinery (treated as a given
capability, not reimplemented)") and fixes its interface in section 6
(`Diff wire format`: an ordered array of `{op, path, value}` operations,
RFC 6902).  Those parts are therefore modelled here from the spec, following
the documented nlohmann algorithms for `json::diff` and `json::patch`.
JSON pointer strings are modelled as structured token lists (the textual
pointer encoding is a bijection on tokens and is kept out of the proofs).
-/

/-- Modelled from the spec: the structured JSON document type provided by the
external JSON machinery (nlohmann `json`).  Objects are stored with strictly
sorted, duplicate-free keys (nlohmann uses `std::map`); well-formedness is the
separate predicate `Json.wf`. -/
inductive Json where
  | null
  | bool (b : Bool)
  | num (n : Int)
  | str (s : String)
  | arr (elems : List Json)
  | obj (fields : List (String × Json))

mutual
/-- Structural equality of JSON documents (nlohmann `operator==`; on canonical
`std::map`-backed objects this is field-list equality). -/
def Json.beq : Json → Json → Bool
  | .null, .null => true
  | .bool a, .bool b => a == b
  | .num a, .num b => a == b
  | .str a, .str b => a == b
  | .arr xs, .arr ys => Json.beqList xs ys
  | .obj xs, .obj ys => Json.beqFields xs ys
  | _, _ => false

def Json.beqList : List Json → List Json → Bool
  | [], [] => true
  | x :: xs, y :: ys => Json.beq x y && Json.beqList xs ys
  | _, _ => false

def Json.beqFields : List (String × Json) → List (String × Json) → Bool
  | [], [] => true
  | (k, v) :: xs, (k', w) :: ys => k == k' && Json.beq v w && Json.beqFields xs ys
  | _, _ => false
end

/-- Lookup in an object's field list (first occurrence; on well-formed objects
keys are unique, matching `std::map::find`). -/
def objGet : List (String × Json) → String → Option Json
  | [], _ => none
  | (k, v) :: kvs, key => if k = key then some v else objGet kvs key

/-- Insert-or-assign in an object's field list, keeping keys sorted
(matching `std::map::operator[]` assignment). -/
def objSet : List (String × Json) → String → Json → List (String × Json)
  | [], key, v => [(key, v)]
  | (k, w) :: kvs, key, v =>
    if key < k then (key, v) :: (k, w) :: kvs
    else if key = k then (key, v) :: kvs
    else (k, w) :: objSet kvs key v

/-- Erase a key from an object's field list (matching `std::map::erase`). -/
def objErase : List (String × Json) → String → List (String × Json)
  | [], _ => []
  | (k, w) :: kvs, key => if k = key then kvs else (k, w) :: objErase kvs key

/-- Keys of an object's field list are strictly increasing. -/
def keysSorted : List (String × Json) → Bool
  | [] => true
  | [_] => true
  | (k, _) :: (k', v') :: kvs => decide (k < k') && keysSorted ((k', v') :: kvs)

mutual
/-- Well-formed (canonical) JSON document: every object has strictly sorted,
duplicate-free keys, recursively.  This is the representation invariant of the
external JSON machinery (nlohmann objects are `std::map`-backed). -/
def Json.wf : Json → Bool
  | .null => true
  | .bool _ => true
  | .num _ => true
  | .str _ => true
  | .arr xs => Json.wfList xs
  | .obj kvs => keysSorted kvs && Json.wfFields kvs

def Json.wfList : List Json → Bool
  | [] => true
  | x :: xs => x.wf && Json.wfList xs

def Json.wfFields : List (String × Json) → Bool
  | [] => true
  | (_, v) :: kvs => v.wf && Json.wfFields kvs
end

/-- One segment of a JSON pointer: an object key, an array index, or the
end-of-array marker `-` used by `add`. -/
inductive PTok where
  | key (k : String)
  | idx (i : Nat)
  | append
deriving DecidableEq

/-- Modelled from the spec (section 6, Diff wire format): one structural
change, `op ∈ {add, remove, replace}`, a pointer path and a value (absent
for remove). -/
inductive DiffOp where
  | add (path : List PTok) (value : Json)
  | remove (path : List PTok)
  | replace (path : List PTok) (value : Json)

/-- The pointer path of a diff operation. -/
def DiffOp.path : DiffOp → List PTok
  | .add p _ => p
  | .remove p => p
  | .replace p _ => p

/-- Prepend a path to a diff operation's path (used to relate a diff computed
with a path accumulator to the same diff computed at the relative root). -/
def DiffOp.shiftPath (p : List PTok) : DiffOp → DiffOp
  | .add q v => .add (p ++ q) v
  | .remove q => .remove (p ++ q)
  | .replace q v => .replace (p ++ q) v

/-- Trailing remove operations emitted by the array case of `Json.diff` when
the source array is longer: one remove per leftover index `i ≤ j < m`, highest
index first (the C++ inserts each remove at a fixed position in the result,
which reverses their order; this keeps later indices valid during apply). -/
def Json.diffArrRemoves (p : List PTok) (i m : Nat) : List DiffOp :=
  (List.range' i (m - i)).reverse.map (fun j => .remove (p ++ [.idx j]))

/-- Trailing add operations emitted by the array case of `Json.diff` when the
target array is longer: each leftover target element is appended via the
end-of-array pointer `-`. -/
def Json.diffArrAdds (p : List PTok) (ys : List Json) : List DiffOp :=
  ys.map (fun y => .add (p ++ [.append]) y)

/-- Second object pass of `Json.diff`: an add for every target key that is
absent from the source object. -/
def Json.diffObj2 (xs ys : List (String × Json)) (p : List PTok) : List DiffOp :=
  match ys with
  | [] => []
  | (k, w) :: ys' =>
    (if (objGet xs k).isSome then [] else [.add (p ++ [.key k]) w])
      ++ Json.diffObj2 xs ys' p

mutual
/-- Modelled from the spec: the external `json::diff` capability (nlohmann),
producing an RFC 6902 patch that transforms `s` into `t`.  Structure follows
nlohmann's algorithm: equal documents give an empty diff; arrays are compared
element-wise with trailing removes (highest index first) or appends; objects
are compared key-wise (source pass: recurse or remove; target pass: add);
any other pair becomes a single whole-value replace at the current path. -/
def Json.diff (s t : Json) (p : List PTok) : List DiffOp :=
  if Json.beq s t then []
  else
    match s, t with
    | .arr xs, .arr ys => Json.diffArr xs ys p 0
    | .obj xs, .obj ys => Json.diffObj1 xs ys p ++ Json.diffObj2 xs ys p
    | _, t => [.replace p t]

/-- Element-wise array comparison at index `i`, then leftovers. -/
def Json.diffArr (xs ys : List Json) (p : List PTok) (i : Nat) : List DiffOp :=
  match xs, ys with
  | x :: xs', y :: ys' => Json.diff x y (p ++ [.idx i]) ++ Json.diffArr xs' ys' p (i + 1)
  | xs, ys => Json.diffArrRemoves p i (i + xs.length) ++ Json.diffArrAdds p ys

/-- First object pass of `Json.diff`: for every source key, recurse when the
target also has the key, otherwise emit a remove. -/
def Json.diffObj1 (xs ys : List (String × Json)) (p : List PTok) : List DiffOp :=
  match xs with
  | [] => []
  | (k, v) :: xs' =>
    (match objGet ys k with
     | some w => Json.diff v w (p ++ [.key k])
     | none => [.remove (p ++ [.key k])])
      ++ Json.diffObj1 xs' ys p
end

/-- Modelled from the spec: RFC 6902 `add` at a pointer path.  At the root it
replaces the whole document; in an object it inserts or assigns; in an array
it inserts before the index (which must not exceed the length) or appends via
`-`; navigation follows object keys and array indices. -/
def Json.addAt : Json → List PTok → Json → Option Json
  | _, [], v => some v
  | doc, t :: rest, v =>
    match rest with
    | [] =>
      match doc, t with
      | .obj kvs, .key k => some (.obj (objSet kvs k v))
      | .arr xs, .idx i => if i ≤ xs.length then some (.arr (xs.insertIdx i v)) else none
      | .arr xs, .append => some (.arr (xs ++ [v]))
      | _, _ => none
    | _ :: _ =>
      match doc, t with
      | .obj kvs, .key k =>
        (objGet kvs k).bind fun c => (Json.addAt c rest v).map fun c' => .obj (objSet kvs k c')
      | .arr xs, .idx i =>
        (xs.get? i).bind fun c => (Json.addAt c rest v).map fun c' => .arr (xs.set i c')
      | _, _ => none

/-- Modelled from the spec: RFC 6902 `remove` at a pointer path.  The target
must exist; removing the root is an error. -/
def Json.removeAt : Json → List PTok → Option Json
  | _, [] => none
  | doc, t :: rest =>
    match rest with
    | [] =>
      match doc, t with
      | .obj kvs, .key k => if (objGet kvs k).isSome then some (.obj (objErase kvs k)) else none
      | .arr xs, .idx i => if i < xs.length then some (.arr (xs.eraseIdx i)) else none
      | _, _ => none
    | _ :: _ =>
      match doc, t with
      | .obj kvs, .key k =>
        (objGet kvs k).bind fun c => (Json.removeAt c rest).map fun c' => .obj (objSet kvs k c')
      | .arr xs, .idx i =>
        (xs.get? i).bind fun c => (Json.removeAt c rest).map fun c' => .arr (xs.set i c')
      | _, _ => none

/-- Modelled from the spec: RFC 6902 `replace` at a pointer path.  The target
must exist. -/
def Json.replaceAt : Json → List PTok → Json → Option Json
  | _, [], v => some v
  | doc, t :: rest, v =>
    match doc, t with
    | .obj kvs, .key k =>
      (objGet kvs k).bind fun c => (Json.replaceAt c rest v).map fun c' => .obj (objSet kvs k c')
    | .arr xs, .idx i =>
      (xs.get? i).bind fun c => (Json.replaceAt c rest v).map fun c' => .arr (xs.set i c')
    | _, _ => none

/-- Apply one patch operation. -/
def Json.applyOp (doc : Json) : DiffOp → Option Json
  | .add p v => doc.addAt p v
  | .remove p => doc.removeAt p
  | .replace p v => doc.replaceAt p v

/-- Modelled from the spec: the external `json::patch` capability, applying an
RFC 6902 patch sequentially; any failing operation fails the whole patch. -/
def Json.patch (doc : Json) : List DiffOp → Option Json
  | [] => some doc
  | op :: ops => (doc.applyOp op).bind (Json.patch · ops)

/-- Escape one character for a JSON string literal (nlohmann `dump`). -/
def jsonEscapeChar (c : Char) : String :=
  if c = '"' then "\\\""
  else if c = '\\' then "\\\\"
  else if c = '\n' then "\\n"
  else if c = '\t' then "\\t"
  else if c = '\r' then "\\r"
  else String.singleton c

/-- Escape a string for a JSON string literal. -/
def jsonEscape (s : String) : String :=
  String.join (s.toList.map jsonEscapeChar)

mutual
/-- Modelled from the spec: the external serializer `json::dump()` (compact
form), producing the Snapshot text of a state. -/
def Json.dump : Json → String
  | .null => "null"
  | .bool b => if b then "true" else "false"
  | .num n => toString n
  | .str s => "\"" ++ jsonEscape s ++ "\""
  | .arr xs => "[" ++ Json.dumpList xs ++ "]"
  | .obj kvs => "\x7b" ++ Json.dumpFields kvs ++ "\x7d"

def Json.dumpList : List Json → String
  | [] => ""
  | [x] => Json.dump x
  | x :: xs => Json.dump x ++ "," ++ Json.dumpList xs

def Json.dumpFields : List (String × Json) → String
  | [] => ""
  | [(k, v)] => "\"" ++ jsonEscape k ++ "\":" ++ Json.dump v
  | (k, v) :: kvs => "\"" ++ jsonEscape k ++ "\":" ++ Json.dump v ++ "," ++ Json.dumpFields kvs
end

/-- JSON-pointer escaping of a reference token (`~` becomes `~0`, `/` becomes `~1`). -/
def ptrEscape (k : String) : String :=
  String.join (k.toList.map fun c =>
    if c = '~' then "~0" else if c = '/' then "~1" else String.singleton c)

/-- Textual form of one pointer token. -/
def PTok.dump : PTok → String
  | .key k => "/" ++ ptrEscape k
  | .idx i => "/" ++ toString i
  | .append => "/-"

/-- Textual JSON-pointer form of a path. -/
def pathDump (p : List PTok) : String :=
  String.join (p.map PTok.dump)

/-- The wire object of one diff operation (spec section 6:
`{op: "add"|"remove"|"replace", path: <pointer string>, value: <present
unless op=="remove">}`; field lists are sorted as nlohmann stores them). -/
def DiffOp.toJson : DiffOp → Json
  | .add p v => .obj [("op", .str "add"), ("path", .str (pathDump p)), ("value", v)]
  | .remove p => .obj [("op", .str "remove"), ("path", .str (pathDump p))]
  | .replace p v => .obj [("op", .str "replace"), ("path", .str (pathDump p)), ("value", v)]

/-- Serialized form of a whole diff (`diff.dump()`): the ordered array of
operation objects. -/
def Json.dumpDiff (d : List DiffOp) : String :=
  (Json.arr (d.map DiffOp.toJson)).dump

/-- `Server::VERSION_KEY` (src/server.h): the reserved version field name. -/
def VERSION_KEY : String := "__syncer_data_version"

/-- `json::operator[]` assignment on the state document: assigns the field in
an object, implicitly converts null to a one-field object, and throws
(`none`) on any other type. -/
def Json.setKey : Json → String → Json → Option Json
  | .obj kvs, k, v => some (.obj (objSet kvs k v))
  | .null, k, v => some (.obj [(k, v)])
  | _, _, _ => none

/-- Read a field of the state document (none when the document is not an
object or lacks the field). -/
def Json.getKey : Json → String → Option Json
  | .obj kvs, k => objGet kvs k
  | _, _ => none

/-- Strip the reserved version field: the material (domain) content of an
encoded state, used to express "materially differs (structurally)". -/
def Json.stripVersion : Json → Json
  | .obj kvs => .obj (objErase kvs VERSION_KEY)
  | j => j

/-- The members of `syncer::Server` the claims are about: the canonical state
`state_`, the version counter `ver_` and the cached reply `reply_`.  The
backend members `rep_`/`pub_` are the external transport; published payloads
are reported explicitly by each operation's result. -/
structure Server where
  state : Json
  ver : Int
  reply : String

/-- Result of a `Server` operation: the server after the call, the payloads
passed to `pub_.Publish` in order, and whether the call threw (`err`).  In
the C++ source an exception can only arise before any member is written, so
a throwing call leaves the members unchanged and publishes nothing. -/
structure UpdRes where
  srv : Server
  published : List String
  err : Bool

/-- `Server::Server` (src/server.h lines 39-54): encode the initial data
(`enc` is the result of `to_json`, `none` when it throws), stamp
`state_[VERSION_KEY] = ver_` with `ver_ = 0`, cache `reply_ = state_.dump()`
under the mutex, then publish one empty `Message()` (the request-full-state
control signal).  A throw aborts construction; the aborted branches carry
`err = true`. -/
def Server.construct (enc : Option Json) : UpdRes :=
  match enc with
  | none => ⟨⟨.null, 0, ""⟩, [], true⟩
  | some j =>
    match j.setKey VERSION_KEY (.num 0) with
    | none => ⟨⟨j, 0, ""⟩, [], true⟩
    | some st => ⟨⟨st, 0, st.dump⟩, [""], false⟩

/-- `Server::Update` (src/server.h lines 60-77): encode the new data (`enc`,
`none` when `to_json` throws), stamp the tentative version
`next[VERSION_KEY] = ver_ + 1` (which throws when the encoding is neither an
object nor null), diff the committed state against the tentative one, and
when the diff has more than one operation commit: replace `state_`, advance
`ver_`, refresh `reply_` under the mutex, and publish the serialized diff.
Otherwise nothing is written and nothing is published. -/
def Server.Update (s : Server) (enc : Option Json) : UpdRes :=
  match enc with
  | none => ⟨s, [], true⟩
  | some j =>
    match j.setKey VERSION_KEY (.num (s.ver + 1)) with
    | none => ⟨s, [], true⟩
    | some next =>
      let d := Json.diff s.state next []
      if 1 < d.length then
        ⟨⟨next, s.ver + 1, next.dump⟩, [Json.dumpDiff d], false⟩
      else ⟨s, [], false⟩

/-- `Server::HandleRequest` (src/server.h lines 82-85): the request payload is
ignored; the reply is the cached `reply_` read under the mutex. -/
def Server.HandleRequest (s : Server) (_req : String) : String :=
  s.reply

/-- A sequence of `Update` calls; each list element is that call's
`to_json` encode result. -/
def Server.runUpdates (s : Server) : List (Option Json) → Server
  | [] => s
  | e :: es => Server.runUpdates (Server.Update s e).srv es

/-- The tracker invariant of the spec (section 3): the cached reply mirrors
the committed state's serialized text, and the version field embedded in the
state equals the authoritative counter. -/
def Server.Inv (s : Server) : Prop :=
  s.reply = s.state.dump ∧ s.state.getKey VERSION_KEY = some (.num s.ver)

/-- `syncer::PatchOp` (src/include/patch_op_router.h): JSON patch operation
kinds; `val` gives the C++ enum values used in operation masks. -/
inductive PatchOp where
  | add
  | remove
  | replace
deriving DecidableEq

/-- The C++ enum value (`PATCH_OP_ADD = 1, PATCH_OP_REMOVE = 2,
PATCH_OP_REPLACE = 4`). -/
def PatchOp.val : PatchOp → Nat
  | .add => 1
  | .remove => 2
  | .replace => 4

/-- `PATCH_OP_ANY`: the mask containing every operation. -/
def PATCH_OP_ANY : Nat :=
  PatchOp.add.val ||| PatchOp.remove.val ||| PatchOp.replace.val

/-- The value a typed handler receives, with the concrete value type `T2`
erased: either a default-constructed `T2`, or the `T2` decoded from the given
raw JSON value. -/
inductive PassedValue where
  | defaultVal
  | decoded (raw : Json)

/-- Observable record of one wrapped-handler invocation: the capture groups,
operation and raw value it was dispatched with, whether a value decode was
attempted, whether a decode failure was caught and logged, and the value the
typed callback received. -/
structure RuleEvent where
  groups : List String
  op : PatchOp
  raw : Json
  attempted : Bool
  logged : Bool
  value : PassedValue

/-- The wrapper lambda built by `PatchOpRouter::AddCallback`
(src/include/patch_op_router.h lines 64-80) around a typed callback:
default-construct `T2 typed`; unless the operation is a remove, try to decode
the raw value into it, catching and logging a decode failure (which leaves
`typed` default-constructed); finally call the typed callback.  `decOk`
abstracts whether `from_json` succeeds on a given raw value for the rule's
value type; the returned event records the callback invocation. -/
def wrapHandler (decOk : Json → Bool) (m : List String) (op : PatchOp)
    (value : Json) : RuleEvent :=
  if op ≠ PatchOp.remove then
    if decOk value then ⟨m, op, value, true, false, .decoded value⟩
    else ⟨m, op, value, true, true, .defaultVal⟩
  else ⟨m, op, value, false, false, .defaultVal⟩

/-- One registered rule (`PatchOpRouter::Condition`): the compiled path
pattern, the operation mask, and the type-erased wrapped callback.  `re`
models the compiled `std::regex` together with the `std::regex_match` call of
`HandleOp`: a `some` result is a whole-string match carrying the capture
groups (index 0 the whole match); the regex engine is external to the
repository. -/
structure Condition (T : Type) where
  re : String → Option (List String)
  ops : Nat
  cb : T → List String → PatchOp → Json → RuleEvent

/-- `syncer::PatchOpRouter`: the ordered list of registered rules. -/
structure PatchOpRouter (T : Type) where
  conds : List (Condition T)

/-- `PatchOpRouter::AddCallback`: compile the pattern (modelled by `re`) and
append a rule whose handler is the decode wrapper around the typed callback. -/
def PatchOpRouter.AddCallback {T : Type} (r : PatchOpRouter T)
    (re : String → Option (List String)) (ops : Nat) (decOk : Json → Bool) :
    PatchOpRouter T :=
  ⟨r.conds ++ [⟨re, ops, fun _ m op value => wrapHandler decOk m op value⟩]⟩

/-- A rule as produced by `AddCallback`: its callback is the decode wrapper
for some value type's decoder. -/
def Condition.Wrapped {T : Type} (c : Condition T) : Prop :=
  ∃ decOk, c.cb = fun _ m op value => wrapHandler decOk m op value

/-- The loop body of `HandleOp` over the rule list: for each rule in order,
when the operation is in the rule's mask (bitwise test `get<1>(c) & op`) and
the path whole-string-matches the rule's pattern (`regex_match`), invoke the
rule's wrapped handler with the data, the capture groups, the operation and
the raw value. -/
def handleOpGo {T : Type} (data : T) (path : String) (op : PatchOp)
    (val : Json) : List (Condition T) → List RuleEvent
  | [] => []
  | c :: cs =>
    if c.ops &&& op.val ≠ 0 then
      match c.re path with
      | some m => c.cb data m op val :: handleOpGo data path op val cs
      | none => handleOpGo data path op val cs
    else handleOpGo data path op val cs

/-- `PatchOpRouter::HandleOp` (src/include/patch_op_router.h lines 91-102).
The returned list is the sequence of wrapped-handler invocations. -/
def PatchOpRouter.HandleOp {T : Type} (r : PatchOpRouter T) (data : T)
    (path : String) (op : PatchOp) (val : Json) : List RuleEvent :=
  handleOpGo data path op val r.conds

/-- Diff operations that can be lifted through one navigation step: a replace
(at any path, including the relative root), or an add/remove with a non-empty
path.  Every operation `Json.diff` emits relative to a path is of this form. -/
def DiffOp.liftable : DiffOp → Prop
  | .replace _ _ => True
  | .add p _ => p ≠ []
  | .remove p => p ≠ []

/-- The object field list after the first diff pass has been applied: source
keys that the target lacks are gone, source keys the target has carry the
target's value. -/
def objMerge1 (xs ys : List (String × Json)) : List (String × Json) :=
  xs.filterMap (fun kv => (objGet ys kv.1).map (fun w => (kv.1, w)))

/-- The target's fields restricted to keys the source also has. -/
def objRestrict (ys xs : List (String × Json)) : List (String × Json) :=
  ys.filterMap (fun kv => if (objGet xs kv.1).isSome then some kv else none)

/-- The array after the element-wise diff pass: the common prefix carries the
target's elements, leftover source elements (if any) remain. -/
def arrMerge : List Json → List Json → List Json
  | _ :: xs', y :: ys' => y :: arrMerge xs' ys'
  | xs, _ => xs

mutual

theorem Json.beq_iff : ∀ (a b : Json), (Json.beq a b = true) ↔ a = b
  | .null, b => by cases b <;> simp [Json.beq]
  | .bool x, b => by cases b <;> simp [Json.beq]
  | .num x, b => by cases b <;> simp [Json.beq]
  | .str x, b => by cases b <;> simp [Json.beq]
  | .arr xs, b => by
    have h := Json.beqList_iff xs
    cases b <;> simp [Json.beq, h]
  | .obj kvs, b => by
    have h := Json.beqFields_iff kvs
    cases b <;> simp [Json.beq, h]

theorem Json.beqList_iff : ∀ (xs ys : List Json), (Json.beqList xs ys = true) ↔ xs = ys
  | [], ys => by cases ys <;> simp [Json.beqList]
  | x :: xs, [] => by simp [Json.beqList]
  | x :: xs, y :: ys => by
    simp [Json.beqList, Json.beq_iff x y, Json.beqList_iff xs ys]

theorem Json.beqFields_iff :
    ∀ (xs ys : List (String × Json)), (Json.beqFields xs ys = true) ↔ xs = ys
  | [], ys => by cases ys <;> simp [Json.beqFields]
  | x :: xs, [] => by simp [Json.beqFields]
  | (k, v) :: xs, (k', w) :: ys => by
    simp [Json.beqFields, Json.beq_iff v w, Json.beqFields_iff xs ys, Prod.ext_iff]

end

theorem Json.beq_refl (a : Json) : Json.beq a a = true :=
  (Json.beq_iff a a).mpr rfl

theorem Json.beq_eq_false (a b : Json) (h : a ≠ b) : Json.beq a b = false := by
  cases hb : Json.beq a b
  · rfl
  · exact absurd ((Json.beq_iff a b).mp hb) h

theorem Json.diff_self (a : Json) (p : List PTok) : Json.diff a a p = [] := by
  rw [Json.diff.eq_def, Json.beq_refl a]
  rfl

theorem Json.diff_eq_nil_of_eq {a b : Json} (p : List PTok) (h : a = b) :
    Json.diff a b p = [] := by
  subst h; exact Json.diff_self a p

theorem Json.diff_obj (xs ys : List (String × Json)) (p : List PTok)
    (h : Json.obj xs ≠ .obj ys) :
    Json.diff (.obj xs) (.obj ys) p = Json.diffObj1 xs ys p ++ Json.diffObj2 xs ys p := by
  rw [Json.diff.eq_def, Json.beq_eq_false _ _ h]
  simp

theorem Json.diff_arr (xs ys : List Json) (p : List PTok)
    (h : Json.arr xs ≠ .arr ys) :
    Json.diff (.arr xs) (.arr ys) p = Json.diffArr xs ys p 0 := by
  rw [Json.diff.eq_def, Json.beq_eq_false _ _ h]
  simp

theorem Json.diff_replace (a b : Json) (p : List PTok) (h : a ≠ b)
    (harr : ¬∃ xs ys, a = .arr xs ∧ b = .arr ys)
    (hobj : ¬∃ xs ys, a = .obj xs ∧ b = .obj ys) :
    Json.diff a b p = [.replace p b] := by
  rw [Json.diff.eq_def, Json.beq_eq_false _ _ h]
  cases a <;> cases b <;> simp_all

theorem objGet_objSet_self (kvs : List (String × Json)) (k : String) (v : Json) :
    objGet (objSet kvs k v) k = some v := by
  induction kvs with
  | nil => simp [objSet, objGet]
  | cons kv kvs ih =>
    obtain ⟨k0, w⟩ := kv
    by_cases h1 : k < k0
    · simp [objSet, h1, objGet]
    · by_cases h2 : k = k0
      · simp [objSet, h1, h2, objGet]
      · have h2' : ¬(k0 = k) := fun h => h2 h.symm
        simp [objSet, h1, h2, objGet, h2', ih]

theorem objGet_objSet_ne (kvs : List (String × Json)) (k k' : String) (v : Json)
    (h : k' ≠ k) : objGet (objSet kvs k v) k' = objGet kvs k'  := by
  have h' : ¬(k = k') := fun hh => h hh.symm
  induction kvs with
  | nil => simp [objSet, objGet, h']
  | cons kv kvs ih =>
    obtain ⟨k0, w⟩ := kv
    by_cases h1 : k < k0
    · simp [objSet, h1, objGet, h']
    · by_cases h2 : k = k0
      · subst h2
        simp [objSet, h1, objGet, h']
      · simp [objSet, h1, h2, objGet, ih]

theorem objSet_head_eq (kvs : List (String × Json)) (k : String) (v w : Json) :
    objSet ((k, v) :: kvs) k w = (k, w) :: kvs := by
  simp [objSet]

theorem objSet_prepend (kvs : List (String × Json)) (k : String) (v : Json)
    (h : ∀ kv ∈ kvs, k < kv.1) : objSet kvs k v = (k, v) :: kvs := by
  cases kvs with
  | nil => simp [objSet]
  | cons kv kvs =>
    obtain ⟨k0, w⟩ := kv
    have := h (k0, w) (by simp)
    simp [objSet, this]

theorem objSet_objSet (kvs : List (String × Json)) (k : String) (v v' : Json) :
    objSet (objSet kvs k v) k v' = objSet kvs k v' := by
  induction kvs with
  | nil => simp [objSet]
  | cons kv kvs ih =>
    obtain ⟨k0, w⟩ := kv
    by_cases h1 : k < k0
    · simp [objSet, h1, lt_irrefl]
    · by_cases h2 : k = k0
      · subst h2
        simp [objSet, h1, lt_irrefl]
      · simp [objSet, h1, h2, ih]

theorem objSet_self (kvs : List (String × Json)) (k : String) (v : Json)
    (hs : List.Pairwise (fun a b : String × Json => a.1 < b.1) kvs)
    (h : objGet kvs k = some v) : objSet kvs k v = kvs := by
  induction kvs with
  | nil => simp [objGet] at h
  | cons kv kvs ih =>
    obtain ⟨k0, w⟩ := kv
    by_cases h2 : k0 = k
    · subst h2
      simp [objGet] at h
      subst h
      simp [objSet]
    · simp [objGet, h2] at h
      have hlt : ∀ b ∈ kvs, k0 < b.1 := fun b hb => (List.pairwise_cons.mp hs).1 b hb
      have hk0k : ¬(k < k0) := by
        intro hlt'
        have : (k, v) ∈ kvs := by
          clear ih hs hlt
          induction kvs with
          | nil => simp [objGet] at h
          | cons kv' kvs' ih' =>
            obtain ⟨k1, w1⟩ := kv'
            by_cases h3 : k1 = k
            · subst h3
              simp [objGet] at h
              subst h
              simp
            · simp [objGet, h3] at h
              simp [ih' h]
        have := hlt (k, v) this
        exact absurd (lt_trans hlt' this) (lt_irrefl k)
      have h2' : ¬(k = k0) := fun hh => h2 hh.symm
      simp [objSet, hk0k, h2', ih (List.pairwise_cons.mp hs).2 h]

theorem objGet_mem (kvs : List (String × Json)) (k : String) (v : Json)
    (h : objGet kvs k = some v) : (k, v) ∈ kvs := by
  induction kvs with
  | nil => simp [objGet] at h
  | cons kv kvs ih =>
    obtain ⟨k0, w⟩ := kv
    by_cases h0 : k0 = k
    · subst h0
      simp [objGet] at h
      simp [h]
    · simp [objGet, h0] at h
      simp [ih h]

theorem objGet_eq_none (kvs : List (String × Json)) (k : String)
    (h : ∀ kv ∈ kvs, kv.1 ≠ k) : objGet kvs k = none := by
  induction kvs with
  | nil => simp [objGet]
  | cons kv kvs ih =>
    obtain ⟨k0, w⟩ := kv
    have := h (k0, w) (by simp)
    simp [objGet, this, ih (fun kv hkv => h kv (by simp [hkv]))]

theorem objSet_mem (kvs : List (String × Json)) (k : String) (v : Json)
    (kv : String × Json) (h : kv ∈ objSet kvs k v) : kv = (k, v) ∨ kv ∈ kvs := by
  induction kvs with
  | nil => simp [objSet] at h; simp [h]
  | cons kv0 kvs ih =>
    obtain ⟨k0, w⟩ := kv0
    by_cases h1 : k < k0
    · simp [objSet, h1] at h
      rcases h with h | h | h
      · exact Or.inl (by simp [h])
      · exact Or.inr (by simp [h])
      · exact Or.inr (by simp [h])
    · by_cases h2 : k = k0
      · subst h2
        simp [objSet, h1] at h
        rcases h with h | h
        · exact Or.inl (by simp [h])
        · exact Or.inr (by simp [h])
      · simp [objSet, h1, h2] at h
        rcases h with h | h
        · exact Or.inr (by simp [h])
        · rcases ih h with h' | h'
          · exact Or.inl h'
          · exact Or.inr (by simp [h'])

theorem objSet_sorted (kvs : List (String × Json)) (k : String) (v : Json)
    (hs : List.Pairwise (fun a b : String × Json => a.1 < b.1) kvs) :
    List.Pairwise (fun a b : String × Json => a.1 < b.1) (objSet kvs k v) := by
  induction kvs with
  | nil => simp [objSet]
  | cons kv kvs ih =>
    obtain ⟨k0, w⟩ := kv
    obtain ⟨hhead, htail⟩ := List.pairwise_cons.mp hs
    by_cases h1 : k < k0
    · rw [show objSet ((k0, w) :: kvs) k v = (k, v) :: (k0, w) :: kvs by simp [objSet, h1]]
      refine List.pairwise_cons.mpr ⟨?_, hs⟩
      intro b hb
      rcases List.mem_cons.mp hb with h | h
      · simp [h, h1]
      · exact lt_trans h1 (hhead b h)
    · by_cases h2 : k = k0
      · subst h2
        rw [objSet_head_eq]
        exact List.pairwise_cons.mpr ⟨hhead, htail⟩
      · rw [show objSet ((k0, w) :: kvs) k v = (k0, w) :: objSet kvs k v by simp [objSet, h1, h2]]
        refine List.pairwise_cons.mpr ⟨?_, ih htail⟩
        intro b hb
        rcases objSet_mem kvs k v b hb with h | h
        · have : k0 < k := by
            rcases lt_trichotomy k k0 with hh | hh | hh
            · exact absurd hh h1
            · exact absurd hh h2
            · exact hh
          simp [h, this]
        · exact hhead b h

theorem objErase_sublist (kvs : List (String × Json)) (k : String) :
    (objErase kvs k).Sublist kvs := by
  induction kvs with
  | nil => simp [objErase]
  | cons kv kvs ih =>
    obtain ⟨k0, w⟩ := kv
    by_cases h : k0 = k
    · simp [objErase, h]
    · simp [objErase, h]
      exact ih

theorem objErase_sorted (kvs : List (String × Json)) (k : String)
    (hs : List.Pairwise (fun a b : String × Json => a.1 < b.1) kvs) :
    List.Pairwise (fun a b : String × Json => a.1 < b.1) (objErase kvs k) :=
  hs.sublist (objErase_sublist kvs k)

theorem objGet_objErase_ne (kvs : List (String × Json)) (k k' : String)
    (h : k' ≠ k) : objGet (objErase kvs k) k' = objGet kvs k' := by
  induction kvs with
  | nil => simp [objErase]
  | cons kv kvs ih =>
    obtain ⟨k0, w⟩ := kv
    by_cases h0 : k0 = k
    · subst h0
      have : ¬(k0 = k') := fun hh => h (hh.symm)
      simp [objErase, objGet, this]
    · by_cases h1 : k0 = k'
      · subst h1
        simp [objErase, h0, objGet]
      · simp [objErase, h0, objGet, h1, ih]

theorem objGet_objErase_self (kvs : List (String × Json)) (k : String)
    (hs : List.Pairwise (fun a b : String × Json => a.1 < b.1) kvs) :
    objGet (objErase kvs k) k = none := by
  induction kvs with
  | nil => simp [objErase, objGet]
  | cons kv kvs ih =>
    obtain ⟨k0, w⟩ := kv
    obtain ⟨hhead, htail⟩ := List.pairwise_cons.mp hs
    by_cases h0 : k0 = k
    · subst h0
      simp [objErase]
      apply objGet_eq_none
      intro kv hkv heq
      exact absurd (hhead kv hkv) (by simp [heq])
    · simp [objErase, h0, objGet, h0, ih htail]

theorem sorted_ext (xs : List (String × Json)) : ∀ (ys : List (String × Json)),
    List.Pairwise (fun a b : String × Json => a.1 < b.1) xs →
    List.Pairwise (fun a b : String × Json => a.1 < b.1) ys →
    (∀ k, objGet xs k = objGet ys k) → xs = ys := by
  induction xs with
  | nil =>
    intro ys _ hys h
    cases ys with
    | nil => rfl
    | cons kv ys =>
      obtain ⟨k0, w⟩ := kv
      have := h k0
      simp [objGet] at this
  | cons kv xs ih =>
    intro ys hxs hys h
    obtain ⟨k0, v⟩ := kv
    cases ys with
    | nil =>
      have := h k0
      simp [objGet] at this
    | cons kv' ys =>
      obtain ⟨k1, w⟩ := kv'
      obtain ⟨hhx, htx⟩ := List.pairwise_cons.mp hxs
      obtain ⟨hhy, hty⟩ := List.pairwise_cons.mp hys
      have hk : k0 = k1 := by
        by_contra hne
        have hne' : ¬(k1 = k0) := fun hh => hne hh.symm
        have h1 := h k0
        have h2 := h k1
        simp [objGet, hne'] at h1
        simp [objGet, hne] at h2
        have m1 := objGet_mem ys k0 v h1.symm
        have m2 := objGet_mem xs k1 w h2
        have l1 := hhy _ m1
        have l2 := hhx _ m2
        simp at l1 l2
        exact absurd (lt_trans l1 l2) (lt_irrefl _)
      subst hk
      have hv : v = w := by
        have := h k0
        simp [objGet] at this
        exact this
      subst hv
      have htail : xs = ys := by
        refine ih ys htx hty fun k => ?_
        by_cases hkk : k0 = k
        · subst hkk
          have hx : objGet xs k0 = none :=
            objGet_eq_none xs k0 (fun kv hkv heq => absurd (hhx kv hkv) (by simp [heq]))
          have hy : objGet ys k0 = none :=
            objGet_eq_none ys k0 (fun kv hkv heq => absurd (hhy kv hkv) (by simp [heq]))
          rw [hx, hy]
        · have := h k
          simpa [objGet, hkk] using this
      rw [htail]

theorem keysSorted_iff (kvs : List (String × Json)) :
    keysSorted kvs = true ↔ List.Pairwise (fun a b : String × Json => a.1 < b.1) kvs := by
  induction kvs with
  | nil => simp [keysSorted]
  | cons kv kvs ih =>
    obtain ⟨k, v⟩ := kv
    cases kvs with
    | nil => simp [keysSorted]
    | cons kv2 rest =>
      obtain ⟨k2, v2⟩ := kv2
      simp only [keysSorted, Bool.and_eq_true, decide_eq_true_eq]
      constructor
      · intro hh
        obtain ⟨h1, h2⟩ := hh
        have hp := ih.mp h2
        refine List.pairwise_cons.mpr ⟨?_, hp⟩
        intro b hb
        rcases List.mem_cons.mp hb with h | h
        · simp [h, h1]
        · have := (List.pairwise_cons.mp hp).1 b h
          exact lt_trans h1 this
      · intro hp
        obtain ⟨hh, ht⟩ := List.pairwise_cons.mp hp
        refine ⟨?_, ih.mpr ht⟩
        have := hh (k2, v2) (by simp)
        exact this

theorem Json.wfFields_mem (kvs : List (String × Json)) (kv : String × Json)
    (h : Json.wfFields kvs = true) (hm : kv ∈ kvs) : kv.2.wf = true := by
  induction kvs with
  | nil => simp at hm
  | cons kv0 kvs ih =>
    obtain ⟨k0, v0⟩ := kv0
    simp only [Json.wfFields, Bool.and_eq_true] at h
    rcases List.mem_cons.mp hm with hm | hm
    · subst hm
      exact h.1
    · exact ih h.2 hm

theorem Json.wfList_mem (xs : List Json) (x : Json)
    (h : Json.wfList xs = true) (hm : x ∈ xs) : x.wf = true := by
  induction xs with
  | nil => simp at hm
  | cons x0 xs ih =>
    simp only [Json.wfList, Bool.and_eq_true] at h
    rcases List.mem_cons.mp hm with hm | hm
    · subst hm
      exact h.1
    · exact ih h.2 hm

theorem Json.wfFields_of (kvs : List (String × Json))
    (h : ∀ kv ∈ kvs, (kv : String × Json).2.wf = true) : Json.wfFields kvs = true := by
  induction kvs with
  | nil => simp [Json.wfFields]
  | cons kv0 kvs ih =>
    obtain ⟨k0, v0⟩ := kv0
    simp only [Json.wfFields, Bool.and_eq_true]
    exact ⟨h (k0, v0) (by simp), ih fun kv hkv => h kv (by simp [hkv])⟩

theorem Json.wf_obj_pairwise (kvs : List (String × Json))
    (h : (Json.obj kvs).wf = true) :
    List.Pairwise (fun a b : String × Json => a.1 < b.1) kvs := by
  simp only [Json.wf, Bool.and_eq_true] at h
  exact (keysSorted_iff kvs).mp h.1

theorem Json.wf_obj_fields (kvs : List (String × Json))
    (h : (Json.obj kvs).wf = true) : Json.wfFields kvs = true := by
  simp only [Json.wf, Bool.and_eq_true] at h
  exact h.2

theorem Json.wf_obj_of (kvs : List (String × Json))
    (h1 : List.Pairwise (fun a b : String × Json => a.1 < b.1) kvs)
    (h2 : Json.wfFields kvs = true) : (Json.obj kvs).wf = true := by
  simp only [Json.wf, Bool.and_eq_true]
  exact ⟨(keysSorted_iff kvs).mpr h1, h2⟩

theorem Json.wf_arr_elems (xs : List Json) (h : (Json.arr xs).wf = true) :
    Json.wfList xs = true := by
  simpa [Json.wf] using h

theorem objGet_wf (kvs : List (String × Json)) (k : String) (v : Json)
    (h : (Json.obj kvs).wf = true) (hg : objGet kvs k = some v) : v.wf = true :=
  Json.wfFields_mem kvs (k, v) (Json.wf_obj_fields kvs h) (objGet_mem kvs k v hg)

theorem Json.wf_objSet (kvs : List (String × Json)) (k : String) (v : Json)
    (h : (Json.obj kvs).wf = true) (hv : v.wf = true) :
    (Json.obj (objSet kvs k v)).wf = true := by
  refine Json.wf_obj_of _ (objSet_sorted kvs k v (Json.wf_obj_pairwise kvs h)) ?_
  refine Json.wfFields_of _ fun kv hkv => ?_
  rcases objSet_mem kvs k v kv hkv with hh | hh
  · subst hh
    exact hv
  · exact Json.wfFields_mem kvs kv (Json.wf_obj_fields kvs h) hh

theorem Json.setKey_wf (j : Json) (k : String) (v j' : Json)
    (h : j.setKey k v = some j') (hj : j.wf = true) (hv : v.wf = true) :
    j'.wf = true := by
  cases j <;> simp [Json.setKey] at h
  · subst h
    simp [Json.wf, Json.wfFields, keysSorted, hv]
  · subst h
    exact Json.wf_objSet _ k v hj hv

theorem Json.getKey_setKey (j : Json) (k : String) (v j' : Json)
    (h : j.setKey k v = some j') : j'.getKey k = some v := by
  cases j <;> simp [Json.setKey] at h
  · subst h
    simp [Json.getKey, objGet]
  · subst h
    simp [Json.getKey, objGet_objSet_self]

theorem objErase_objSet (kvs : List (String × Json)) (k : String) (v : Json)
    (hs : List.Pairwise (fun a b : String × Json => a.1 < b.1) kvs) :
    objErase (objSet kvs k v) k = objErase kvs k := by
  refine sorted_ext _ _ (objErase_sorted _ _ (objSet_sorted _ _ _ hs))
    (objErase_sorted _ _ hs) fun k' => ?_
  by_cases h : k' = k
  · subst h
    rw [objGet_objErase_self _ _ (objSet_sorted _ _ _ hs), objGet_objErase_self _ _ hs]
  · rw [objGet_objErase_ne _ _ _ h, objGet_objErase_ne _ _ _ h, objGet_objSet_ne _ _ _ _ h]

theorem handleOpGo_append {T : Type} (data : T) (path : String) (op : PatchOp)
    (val : Json) (cs1 cs2 : List (Condition T)) :
    handleOpGo data path op val (cs1 ++ cs2)
      = handleOpGo data path op val cs1 ++ handleOpGo data path op val cs2 := by
  induction cs1 with
  | nil => simp [handleOpGo]
  | cons c cs ih =>
    by_cases hm : c.ops &&& op.val ≠ 0
    · cases hre : c.re path <;> simp [handleOpGo, hm, hre, ih]
    · simp [handleOpGo, hm, ih]

theorem handleOpGo_filterMap {T : Type} (data : T) (path : String) (op : PatchOp)
    (val : Json) (cs : List (Condition T)) :
    handleOpGo data path op val cs
      = cs.filterMap (fun c =>
          if c.ops &&& op.val ≠ 0 then (c.re path).map (fun m => c.cb data m op val)
          else none) := by
  induction cs with
  | nil => simp [handleOpGo]
  | cons c cs ih =>
    by_cases hm : c.ops &&& op.val ≠ 0
    · cases hre : c.re path <;> simp [handleOpGo, hm, hre, ih]
    · simp [handleOpGo, hm, ih]

theorem handleOpGo_length {T : Type} (data : T) (path : String) (op : PatchOp)
    (val : Json) (cs : List (Condition T)) :
    (handleOpGo data path op val cs).length
      = (cs.filter fun c => decide (c.ops &&& op.val ≠ 0) && (c.re path).isSome).length := by
  induction cs with
  | nil => simp [handleOpGo]
  | cons c cs ih =>
    by_cases hm : c.ops &&& op.val ≠ 0
    · cases hre : c.re path <;> simp [handleOpGo, List.filter, hm, hre, ih]
    · simp [handleOpGo, List.filter, hm, ih]

theorem handleOpGo_mem {T : Type} (data : T) (path : String) (op : PatchOp)
    (val : Json) (cs : List (Condition T)) (ev : RuleEvent)
    (h : ev ∈ handleOpGo data path op val cs) :
    ∃ c ∈ cs, ∃ m, c.re path = some m ∧ ev = c.cb data m op val := by
  induction cs with
  | nil => simp [handleOpGo] at h
  | cons c cs ih =>
    by_cases hm : c.ops &&& op.val ≠ 0
    · cases hre : c.re path with
      | some m =>
        simp [handleOpGo, hm, hre] at h
        rcases h with h | h
        · exact ⟨c, by simp, m, hre, h⟩
        · obtain ⟨c', hc', hrest⟩ := ih h
          exact ⟨c', by simp [hc'], hrest⟩
      | none =>
        simp [handleOpGo, hm, hre] at h
        obtain ⟨c', hc', hrest⟩ := ih h
        exact ⟨c', by simp [hc'], hrest⟩
    · simp [handleOpGo, hm] at h
      obtain ⟨c', hc', hrest⟩ := ih h
      exact ⟨c', by simp [hc'], hrest⟩

/-- C4: for N registered rules of which exactly M have the operation in their
mask and whose pattern whole-string-matches the path, `HandleOp` invokes
exactly those M wrapped handlers, each exactly once, in registration order,
with the context, captured groups, operation and raw value; the callbacks are
arbitrary, so no handler outcome (in particular no decode outcome) can
short-circuit the dispatch, and no first-match short-circuit exists. -/
theorem router_handleOp_full_fanout {T : Type} (r : PatchOpRouter T) (data : T)
    (path : String) (op : PatchOp) (val : Json) :
    r.HandleOp data path op val
      = r.conds.filterMap (fun c =>
          if c.ops &&& op.val ≠ 0 then (c.re path).map (fun m => c.cb data m op val)
          else none)
    ∧ (r.HandleOp data path op val).length
      = (r.conds.filter fun c => decide (c.ops &&& op.val ≠ 0) && (c.re path).isSome).length :=
  ⟨handleOpGo_filterMap data path op val r.conds, handleOpGo_length data path op val r.conds⟩

/-- C7: a rule matched against a remove operation never attempts value
decoding: every handler invocation performed by `HandleOp` for a remove
operation has `attempted = false`, receives the default-constructed value,
and logs nothing, regardless of the supplied raw value. -/
theorem router_remove_skips_decode {T : Type} (r : PatchOpRouter T)
    (hw : ∀ c ∈ r.conds, c.Wrapped) (data : T) (path : String) (val : Json) :
    ∀ ev ∈ r.HandleOp data path .remove val,
      ev.attempted = false ∧ ev.value = .defaultVal ∧ ev.logged = false := by
  intro ev hev
  obtain ⟨c, hc, m, hre, hev⟩ := handleOpGo_mem data path .remove val r.conds ev hev
  obtain ⟨decOk, hcb⟩ := hw c hc
  subst hev
  rw [hcb]
  simp [wrapHandler]

/-- C7 witness: a concrete wrapped rule with `PATCH_OP_ANY` mask and an
always-succeeding decoder, dispatched a remove operation: the one invocation
it produces attempted no decode, received the default value and logged
nothing. -/
theorem router_remove_skips_decode_witness :
    (RuleEvent.mk ["/a"] .remove (.num 7) false false .defaultVal).attempted = false
    ∧ (RuleEvent.mk ["/a"] .remove (.num 7) false false .defaultVal).value = .defaultVal
    ∧ (RuleEvent.mk ["/a"] .remove (.num 7) false false .defaultVal).logged = false :=
  router_remove_skips_decode
    (PatchOpRouter.AddCallback (T := Unit) ⟨[]⟩ (fun s => some [s]) PATCH_OP_ANY
      (fun _ => true))
    (by
      intro c hc
      simp [PatchOpRouter.AddCallback] at hc
      subst hc
      exact ⟨fun _ => true, rfl⟩)
    () "/a" (.num 7)
    (RuleEvent.mk ["/a"] .remove (.num 7) false false .defaultVal)
    (by
      simp [PatchOpRouter.HandleOp, PatchOpRouter.AddCallback, handleOpGo, wrapHandler,
        PATCH_OP_ANY, PatchOp.val])

/-- C6: when a matching rule's value decode fails inside `HandleOp`, the
failure is caught and logged inside that rule's wrapper, the rule's handler
is still invoked with a default-constructed value, and all other rules are
dispatched exactly as they would be on their own (each with its own decode
outcome): the invocation list splits around the failing rule's event. -/
theorem router_decode_failure_isolated {T : Type} (r : PatchOpRouter T)
    (cs1 cs2 : List (Condition T)) (c : Condition T) (decOk : Json → Bool)
    (data : T) (path : String) (op : PatchOp) (val : Json) (m : List String)
    (hr : r.conds = cs1 ++ c :: cs2)
    (hcb : c.cb = fun _ m op value => wrapHandler decOk m op value)
    (hmask : c.ops &&& op.val ≠ 0) (hre : c.re path = some m)
    (hop : op ≠ PatchOp.remove) (hfail : decOk val = false) :
    r.HandleOp data path op val
      = handleOpGo data path op val cs1
        ++ RuleEvent.mk m op val true true .defaultVal :: handleOpGo data path op val cs2 := by
  rw [PatchOpRouter.HandleOp, hr, handleOpGo_append]
  congr 1
  simp [handleOpGo, hmask, hre, hcb, wrapHandler, hop, hfail]

/-- C6 witness: two concrete wrapped rules both matching a replace operation;
the first rule's decoder rejects the value, the second accepts it.  The
failing rule's invocation is logged and receives the default value, and the
second rule is still dispatched with its own (successful) outcome. -/
theorem router_decode_failure_isolated_witness :
    (PatchOpRouter.mk (T := Unit)
        [⟨fun s => some [s], PATCH_OP_ANY, fun _ m op value => wrapHandler (fun _ => false) m op value⟩,
         ⟨fun s => some [s], PATCH_OP_ANY, fun _ m op value => wrapHandler (fun _ => true) m op value⟩]).HandleOp
      () "/a" .replace (.num 5)
      = handleOpGo () "/a" .replace (.num 5) []
        ++ RuleEvent.mk ["/a"] .replace (.num 5) true true .defaultVal
          :: handleOpGo () "/a" .replace (.num 5)
              [⟨fun s => some [s], PATCH_OP_ANY, fun _ m op value => wrapHandler (fun _ => true) m op value⟩] :=
  router_decode_failure_isolated _ [] _ _ (fun _ => false) () "/a" .replace (.num 5) ["/a"]
    rfl rfl (by decide) rfl (by decide) rfl

theorem Server.update_cases (s : Server) (enc : Option Json) :
    ((Server.Update s enc).srv = s ∧ (Server.Update s enc).published = [])
    ∨ (∃ j next, enc = some j ∧ j.setKey VERSION_KEY (.num (s.ver + 1)) = some next ∧
        1 < (Json.diff s.state next []).length ∧
        Server.Update s enc
          = ⟨⟨next, s.ver + 1, next.dump⟩, [Json.dumpDiff (Json.diff s.state next [])], false⟩) := by
  cases enc with
  | none => exact Or.inl ⟨rfl, rfl⟩
  | some j =>
    cases hset : j.setKey VERSION_KEY (.num (s.ver + 1)) with
    | none =>
      refine Or.inl ?_
      simp [Server.Update, hset]
    | some next =>
      by_cases hlen : 1 < (Json.diff s.state next []).length
      · refine Or.inr ⟨j, next, rfl, hset, hlen, ?_⟩
        simp [Server.Update, hset, hlen]
      · refine Or.inl ?_
        simp [Server.Update, hset, hlen]

theorem Server.construct_inv (j : Json) (h : (Server.construct (some j)).err = false) :
    (Server.construct (some j)).srv.Inv := by
  cases hset : j.setKey VERSION_KEY (.num 0) with
  | none => simp [Server.construct, hset] at h
  | some st =>
    refine ⟨?_, ?_⟩ <;> simp [Server.construct, hset, Server.Inv]
    exact Json.getKey_setKey j _ _ st hset

theorem Server.update_inv (s : Server) (enc : Option Json) (h : s.Inv) :
    (Server.Update s enc).srv.Inv := by
  rcases Server.update_cases s enc with ⟨hsrv, _⟩ | ⟨j, next, henc, hset, hlen, heq⟩
  · rw [hsrv]
    exact h
  · rw [heq]
    exact ⟨rfl, Json.getKey_setKey j _ _ next hset⟩

theorem Server.runUpdates_inv (s : Server) (es : List (Option Json)) (h : s.Inv) :
    (Server.runUpdates s es).Inv := by
  induction es generalizing s with
  | nil => exact h
  | cons e es ih => exact ih _ (Server.update_inv s e h)

/-- C2: after a (successful) construction and after every `Update` call, the
cached reply equals the serialized text of the stored state and the version
field embedded in the state equals the tracker's counter (`Server.Inv`);
construction establishes the invariant, a single `Update` preserves it, and
so does any sequence of `Update` calls.  `HandleRequest` does not modify the
server at all, so it preserves the invariant trivially. -/
theorem server_snapshot_version_invariant (j : Json) (s : Server)
    (enc : Option Json) (es : List (Option Json)) :
    ((Server.construct (some j)).err = false → (Server.construct (some j)).srv.Inv)
    ∧ (s.Inv → (Server.Update s enc).srv.Inv)
    ∧ (s.Inv → (Server.runUpdates s es).Inv) :=
  ⟨Server.construct_inv j, Server.update_inv s enc, Server.runUpdates_inv s es⟩

/-- C2 witness: the invariant chain evaluated on the concrete initial data
`{"a": 1}` and one subsequent update to `{"a": 2}`. -/
theorem server_snapshot_version_invariant_witness :
    ((Server.construct (some (.obj [("a", .num 1)]))).err = false →
      (Server.construct (some (.obj [("a", .num 1)]))).srv.Inv)
    ∧ (Server.Inv ⟨.obj [(VERSION_KEY, .num 0), ("a", .num 1)], 0,
          (Json.obj [(VERSION_KEY, .num 0), ("a", .num 1)]).dump⟩ →
        (Server.Update ⟨.obj [(VERSION_KEY, .num 0), ("a", .num 1)], 0,
          (Json.obj [(VERSION_KEY, .num 0), ("a", .num 1)]).dump⟩
          (some (.obj [("a", .num 2)]))).srv.Inv)
    ∧ (Server.Inv ⟨.obj [(VERSION_KEY, .num 0), ("a", .num 1)], 0,
          (Json.obj [(VERSION_KEY, .num 0), ("a", .num 1)]).dump⟩ →
        (Server.runUpdates ⟨.obj [(VERSION_KEY, .num 0), ("a", .num 1)], 0,
          (Json.obj [(VERSION_KEY, .num 0), ("a", .num 1)]).dump⟩
          [some (.obj [("a", .num 2)])]).Inv) :=
  server_snapshot_version_invariant (.obj [("a", .num 1)]) _ _ _

/-- C3: every `Update` call either fully commits (the stored state is
replaced by the tentative state, the version advances by exactly 1, the
snapshot is refreshed to the new state's text, and exactly one payload is
published) or is a complete no-op (server unchanged, nothing published); and
when encoding the new data fails (`enc = none`), the call throws without
modifying state, version or snapshot and without publishing. -/
theorem server_update_atomic (s : Server) (enc : Option Json) :
    (((Server.Update s enc).srv = s ∧ (Server.Update s enc).published = [])
      ∨ ((Server.Update s enc).err = false
          ∧ ∃ next, (Server.Update s enc).srv = ⟨next, s.ver + 1, next.dump⟩
          ∧ (Server.Update s enc).published.length = 1))
    ∧ (enc = none →
        (Server.Update s enc).srv = s ∧ (Server.Update s enc).published = []
          ∧ (Server.Update s enc).err = true) := by
  constructor
  · rcases Server.update_cases s enc with ⟨hsrv, hpub⟩ | ⟨j, next, henc, hset, hlen, heq⟩
    · exact Or.inl ⟨hsrv, hpub⟩
    · refine Or.inr ?_
      rw [heq]
      exact ⟨rfl, next, rfl, rfl⟩
  · intro h
    subst h
    exact ⟨rfl, rfl, rfl⟩

/-- C3 witness: the atomicity statement evaluated at a concrete server and a
failing encode. -/
theorem server_update_atomic_witness :
    (((Server.Update ⟨.obj [(VERSION_KEY, .num 0)], 0, ""⟩ none).srv
          = ⟨.obj [(VERSION_KEY, .num 0)], 0, ""⟩
        ∧ (Server.Update ⟨.obj [(VERSION_KEY, .num 0)], 0, ""⟩ none).published = [])
      ∨ ((Server.Update ⟨.obj [(VERSION_KEY, .num 0)], 0, ""⟩ none).err = false
          ∧ ∃ next, (Server.Update ⟨.obj [(VERSION_KEY, .num 0)], 0, ""⟩ none).srv
              = ⟨next, (0 : Int) + 1, next.dump⟩
          ∧ (Server.Update ⟨.obj [(VERSION_KEY, .num 0)], 0, ""⟩ none).published.length = 1))
    ∧ (none = (none : Option Json) →
        (Server.Update ⟨.obj [(VERSION_KEY, .num 0)], 0, ""⟩ none).srv
            = ⟨.obj [(VERSION_KEY, .num 0)], 0, ""⟩
          ∧ (Server.Update ⟨.obj [(VERSION_KEY, .num 0)], 0, ""⟩ none).published = []
          ∧ (Server.Update ⟨.obj [(VERSION_KEY, .num 0)], 0, ""⟩ none).err = true) :=
  server_update_atomic ⟨.obj [(VERSION_KEY, .num 0)], 0, ""⟩ none

/-- C8: constructing with initial data whose encoding `j` admits the version
stamp encodes it, stamps the embedded version field to 0, caches the encoded
text as the snapshot, and publishes exactly one zero-length payload. -/
theorem server_construct_stamps_and_signals (j st : Json)
    (h : j.setKey VERSION_KEY (.num 0) = some st) :
    Server.construct (some j) = ⟨⟨st, 0, st.dump⟩, [""], false⟩
    ∧ st.getKey VERSION_KEY = some (.num 0)
    ∧ ("" : String).length = 0 := by
  refine ⟨by simp [Server.construct, h], Json.getKey_setKey j _ _ st h, rfl⟩

/-- C8 witness: construction from the encoding of `{"a": 1}`. -/
theorem server_construct_stamps_and_signals_witness :
    Server.construct (some (.obj [("a", .num 1)]))
        = ⟨⟨.obj [(VERSION_KEY, .num 0), ("a", .num 1)], 0,
            (Json.obj [(VERSION_KEY, .num 0), ("a", .num 1)]).dump⟩, [""], false⟩
    ∧ (Json.obj [(VERSION_KEY, .num 0), ("a", .num 1)]).getKey VERSION_KEY = some (.num 0)
    ∧ ("" : String).length = 0 :=
  server_construct_stamps_and_signals (.obj [("a", .num 1)])
    (.obj [(VERSION_KEY, .num 0), ("a", .num 1)])
    (by
      have hlt : VERSION_KEY < "a" := by
        rw [String.lt_iff_toList_lt]
        decide
      simp [Json.setKey, objSet, hlt])

/-- C9: for every incoming full-state request the request payload is ignored
(any two payloads yield the same reply in the same state), and the reply is
the cached snapshot text, which under the tracker invariant is the encoded
state including the version field. -/
theorem server_handleRequest_ignores_payload (s : Server) (m1 m2 : String) :
    s.HandleRequest m1 = s.HandleRequest m2
    ∧ s.HandleRequest m1 = s.reply
    ∧ (s.Inv → s.HandleRequest m1 = s.state.dump) :=
  ⟨rfl, rfl, fun h => h.1⟩

/-- C9 witness: two distinct request payloads against a concrete server. -/
theorem server_handleRequest_ignores_payload_witness :
    (Server.HandleRequest ⟨.obj [(VERSION_KEY, .num 0)], 0,
          (Json.obj [(VERSION_KEY, .num 0)]).dump⟩ "x"
        = Server.HandleRequest ⟨.obj [(VERSION_KEY, .num 0)], 0,
          (Json.obj [(VERSION_KEY, .num 0)]).dump⟩ "yy")
    ∧ Server.HandleRequest ⟨.obj [(VERSION_KEY, .num 0)], 0,
          (Json.obj [(VERSION_KEY, .num 0)]).dump⟩ "x"
        = (Json.obj [(VERSION_KEY, .num 0)]).dump
    ∧ (Server.Inv ⟨.obj [(VERSION_KEY, .num 0)], 0, (Json.obj [(VERSION_KEY, .num 0)]).dump⟩ →
        Server.HandleRequest ⟨.obj [(VERSION_KEY, .num 0)], 0,
          (Json.obj [(VERSION_KEY, .num 0)]).dump⟩ "x"
          = (Json.obj [(VERSION_KEY, .num 0)]).dump) :=
  server_handleRequest_ignores_payload _ "x" "yy"

theorem DiffOp.shiftPath_comp (p q : List PTok) (op : DiffOp) :
    DiffOp.shiftPath p (DiffOp.shiftPath q op) = DiffOp.shiftPath (p ++ q) op := by
  cases op <;> simp [DiffOp.shiftPath]

theorem DiffOp.shiftPath_path (p : List PTok) (op : DiffOp) :
    (DiffOp.shiftPath p op).path = p ++ op.path := by
  cases op <;> simp [DiffOp.shiftPath, DiffOp.path]

theorem Json.diffObj2_shift (xs ys : List (String × Json)) (p : List PTok) :
    Json.diffObj2 xs ys p = (Json.diffObj2 xs ys []).map (DiffOp.shiftPath p) := by
  induction ys with
  | nil => simp [Json.diffObj2]
  | cons kv ys ih =>
    obtain ⟨k, w⟩ := kv
    by_cases h : (objGet xs k).isSome
    · simp [Json.diffObj2, h, ih]
    · simp [Json.diffObj2, h, ih, DiffOp.shiftPath]

theorem Json.diffArrRemoves_shift (p : List PTok) (i m : Nat) :
    Json.diffArrRemoves p i m = (Json.diffArrRemoves [] i m).map (DiffOp.shiftPath p) := by
  simp [Json.diffArrRemoves, List.map_map, Function.comp_def, DiffOp.shiftPath]

theorem Json.diffArrAdds_shift (p : List PTok) (ys : List Json) :
    Json.diffArrAdds p ys = (Json.diffArrAdds [] ys).map (DiffOp.shiftPath p) := by
  simp [Json.diffArrAdds, List.map_map, Function.comp_def, DiffOp.shiftPath]

mutual

theorem Json.diff_shift (s t : Json) (p : List PTok) :
    Json.diff s t p = (Json.diff s t []).map (DiffOp.shiftPath p) := by
  by_cases h : s = t
  · rw [Json.diff_eq_nil_of_eq p h, Json.diff_eq_nil_of_eq [] h]
    rfl
  · cases s <;> cases t <;>
      first
      | exact absurd rfl h
      | exact (by
          rw [Json.diff_arr _ _ _ h, Json.diff_arr _ _ _ h]
          exact Json.diffArr_shift _ _ p 0)
      | exact (by
          rw [Json.diff_obj _ _ _ h, Json.diff_obj _ _ _ h, List.map_append,
            ← Json.diffObj1_shift _ _ p, ← Json.diffObj2_shift _ _ p])
      | exact (by
          rw [Json.diff_replace _ _ _ h (by simp) (by simp),
            Json.diff_replace _ _ _ h (by simp) (by simp)]
          simp [DiffOp.shiftPath])
termination_by sizeOf s

theorem Json.diffArr_shift (xs ys : List Json) (p : List PTok) (i : Nat) :
    Json.diffArr xs ys p i = (Json.diffArr xs ys [] i).map (DiffOp.shiftPath p) := by
  cases xs with
  | nil =>
    simp [Json.diffArr, List.map_append, ← Json.diffArrRemoves_shift p,
      ← Json.diffArrAdds_shift p]
  | cons x xs' =>
    cases ys with
    | nil =>
      simp [Json.diffArr, List.map_append, ← Json.diffArrRemoves_shift p,
        ← Json.diffArrAdds_shift p]
    | cons y ys' =>
      have h1 := Json.diff_shift x y (p ++ [PTok.idx i])
      have h2 := Json.diff_shift x y [PTok.idx i]
      have h3 := Json.diffArr_shift xs' ys' p (i + 1)
      simp only [Json.diffArr, List.map_append, h3, List.nil_append]
      congr 1
      rw [h1, h2, List.map_map]
      congr 1
      funext op
      simp [Function.comp_def, DiffOp.shiftPath_comp]
termination_by sizeOf xs

theorem Json.diffObj1_shift (xs ys : List (String × Json)) (p : List PTok) :
    Json.diffObj1 xs ys p = (Json.diffObj1 xs ys []).map (DiffOp.shiftPath p) := by
  cases xs with
  | nil => simp [Json.diffObj1]
  | cons kv xs' =>
    obtain ⟨k, v⟩ := kv
    cases hget : objGet ys k with
    | some w =>
      have h1 := Json.diff_shift v w (p ++ [PTok.key k])
      have h2 := Json.diff_shift v w [PTok.key k]
      have h3 := Json.diffObj1_shift xs' ys p
      simp only [Json.diffObj1, hget, List.map_append, h3, List.nil_append]
      congr 1
      rw [h1, h2, List.map_map]
      congr 1
      funext op
      simp [Function.comp_def, DiffOp.shiftPath_comp]
    | none =>
      have h3 := Json.diffObj1_shift xs' ys p
      simp [Json.diffObj1, hget, h3, DiffOp.shiftPath]
termination_by sizeOf xs

end

theorem Json.diffArr_path_ne_nil (xs : List Json) : ∀ (ys : List Json) (i : Nat)
    (op : DiffOp), op ∈ Json.diffArr xs ys [] i → op.path ≠ [] := by
  induction xs with
  | nil =>
    intro ys i op h
    simp only [Json.diffArr] at h
    rcases List.mem_append.mp h with h | h
    · simp only [Json.diffArrRemoves, List.mem_map] at h
      obtain ⟨j, _, hop⟩ := h
      subst hop
      simp [DiffOp.path]
    · simp only [Json.diffArrAdds, List.mem_map] at h
      obtain ⟨y, _, hop⟩ := h
      subst hop
      simp [DiffOp.path]
  | cons x xs' ih =>
    intro ys i op h
    cases ys with
    | nil =>
      simp only [Json.diffArr] at h
      rcases List.mem_append.mp h with h | h
      · simp only [Json.diffArrRemoves, List.mem_map] at h
        obtain ⟨j, _, hop⟩ := h
        subst hop
        simp [DiffOp.path]
      · simp only [Json.diffArrAdds] at h
        simp at h
    | cons y ys' =>
      simp only [Json.diffArr] at h
      rcases List.mem_append.mp h with h | h
      · rw [Json.diff_shift x y ([] ++ [PTok.idx i])] at h
        obtain ⟨op', _, hop⟩ := List.mem_map.mp h
        subst hop
        simp [DiffOp.shiftPath_path]
      · exact ih ys' (i + 1) op h

theorem Json.diffObj1_shape (ys : List (String × Json)) (xs : List (String × Json))
    (op : DiffOp) (h : op ∈ Json.diffObj1 xs ys []) :
    ∃ kv ∈ xs, ∃ q, op.path = .key kv.1 :: q := by
  induction xs with
  | nil => simp [Json.diffObj1] at h
  | cons kv0 xs' ih =>
    obtain ⟨k, v⟩ := kv0
    cases hget : objGet ys k with
    | some w =>
      simp only [Json.diffObj1, hget] at h
      rcases List.mem_append.mp h with h | h
      · rw [Json.diff_shift v w ([] ++ [PTok.key k])] at h
        obtain ⟨op', _, hop⟩ := List.mem_map.mp h
        subst hop
        exact ⟨(k, v), by simp, op'.path, by simp [DiffOp.shiftPath_path]⟩
      · obtain ⟨kv, hkv, q, hq⟩ := ih h
        exact ⟨kv, by simp [hkv], q, hq⟩
    | none =>
      simp only [Json.diffObj1, hget] at h
      rcases List.mem_append.mp h with h | h
      · simp at h
        subst h
        exact ⟨(k, v), by simp, [], by simp [DiffOp.path]⟩
      · obtain ⟨kv, hkv, q, hq⟩ := ih h
        exact ⟨kv, by simp [hkv], q, hq⟩

theorem Json.diffObj2_shape (xs : List (String × Json)) (p : List PTok) :
    ∀ (ys : List (String × Json)) (op : DiffOp), op ∈ Json.diffObj2 xs ys p →
    ∃ kv ∈ ys, objGet xs kv.1 = none ∧ op = .add (p ++ [.key kv.1]) kv.2 := by
  intro ys
  induction ys with
  | nil => intro op h; simp [Json.diffObj2] at h
  | cons kv0 ys' ih =>
    intro op h
    obtain ⟨k, w⟩ := kv0
    by_cases hget : (objGet xs k).isSome
    · simp only [Json.diffObj2, hget, if_pos, List.nil_append] at h
      obtain ⟨kv, hkv, hrest⟩ := ih op h
      exact ⟨kv, by simp [hkv], hrest⟩
    · simp only [Json.diffObj2, hget, if_neg, List.singleton_append] at h
      rcases List.mem_cons.mp h with h | h
      · subst h
        refine ⟨(k, w), by simp, ?_, rfl⟩
        simpa using hget
      · obtain ⟨kv, hkv, hrest⟩ := ih op h
        exact ⟨kv, by simp [hkv], hrest⟩

theorem DiffOp.liftable_of_path_ne_nil (op : DiffOp) (h : op.path ≠ []) :
    op.liftable := by
  cases op <;> simp [DiffOp.liftable, DiffOp.path] at h ⊢ <;> exact h

theorem Json.diff_mem_liftable (a b : Json) (op : DiffOp)
    (h : op ∈ Json.diff a b []) : op.liftable := by
  by_cases he : a = b
  · rw [Json.diff_eq_nil_of_eq [] he] at h
    simp at h
  · cases a <;> cases b <;>
      first
      | exact absurd rfl he
      | exact (by
          rw [Json.diff_arr _ _ _ he] at h
          exact DiffOp.liftable_of_path_ne_nil op (Json.diffArr_path_ne_nil _ _ 0 op h))
      | exact (by
          rw [Json.diff_obj _ _ _ he] at h
          rcases List.mem_append.mp h with h | h
          · obtain ⟨kv, _, q, hq⟩ := Json.diffObj1_shape _ _ op h
            exact DiffOp.liftable_of_path_ne_nil op (by simp [hq])
          · obtain ⟨kv, _, _, hop⟩ := Json.diffObj2_shape _ [] _ op h
            subst hop
            simp [DiffOp.liftable])
      | exact (by
          rw [Json.diff_replace _ _ _ he (by simp) (by simp)] at h
          simp at h
          subst h
          simp [DiffOp.liftable])

theorem list_set_get_self {α : Type} (zs : List α) (i : Nat) (c : α)
    (h : zs.get? i = some c) : zs.set i c = zs := by
  induction zs generalizing i with
  | nil => simp at h
  | cons z zs ih =>
    cases i with
    | zero =>
      simp at h
      simp [List.set, h]
    | succ i =>
      rw [List.get?_cons_succ] at h
      simp [List.set, ih i h]

theorem list_get?_set_self {α : Type} (zs : List α) (i : Nat) (c' : α)
    (h : i < zs.length) : (zs.set i c').get? i = some c' := by
  induction zs generalizing i with
  | nil => simp at h
  | cons z zs ih =>
    cases i with
    | zero => simp [List.set]
    | succ i =>
      simp only [List.length_cons, Nat.succ_lt_succ_iff] at h
      rw [List.set_cons_succ, List.get?_cons_succ]
      exact ih i h

theorem Json.applyOp_key (kvs : List (String × Json)) (k : String) (op : DiffOp)
    (hop : op.liftable) :
    Json.applyOp (.obj kvs) (DiffOp.shiftPath [.key k] op)
      = (objGet kvs k).bind fun c => (Json.applyOp c op).map fun c' => .obj (objSet kvs k c') := by
  cases op with
  | replace q v => rfl
  | add q v =>
    cases q with
    | nil => simp [DiffOp.liftable] at hop
    | cons t q' => rfl
  | remove q =>
    cases q with
    | nil => simp [DiffOp.liftable] at hop
    | cons t q' => rfl

theorem Json.applyOp_idx (zs : List Json) (i : Nat) (op : DiffOp)
    (hop : op.liftable) :
    Json.applyOp (.arr zs) (DiffOp.shiftPath [.idx i] op)
      = (zs.get? i).bind fun c => (Json.applyOp c op).map fun c' => .arr (zs.set i c') := by
  cases op with
  | replace q v => rfl
  | add q v =>
    cases q with
    | nil => simp [DiffOp.liftable] at hop
    | cons t q' => rfl
  | remove q =>
    cases q with
    | nil => simp [DiffOp.liftable] at hop
    | cons t q' => rfl

theorem Json.patch_append (d : Json) (l1 l2 : List DiffOp) :
    Json.patch d (l1 ++ l2) = (Json.patch d l1).bind fun d' => Json.patch d' l2 := by
  induction l1 generalizing d with
  | nil => simp [Json.patch]
  | cons op l1 ih =>
    cases h : d.applyOp op with
    | none => simp [Json.patch, h]
    | some d' => simp [Json.patch, h, ih]

theorem Json.patch_shift_key (k : String) (L : List DiffOp) :
    ∀ (kvs : List (String × Json)) (c : Json),
      (∀ op ∈ L, op.liftable) →
      List.Pairwise (fun a b : String × Json => a.1 < b.1) kvs →
      objGet kvs k = some c →
      Json.patch (.obj kvs) (L.map (DiffOp.shiftPath [.key k]))
        = (Json.patch c L).map fun c' => .obj (objSet kvs k c') := by
  induction L with
  | nil =>
    intro kvs c _ hs hg
    simp [Json.patch, objSet_self kvs k c hs hg]
  | cons op L ih =>
    intro kvs c hl hs hg
    simp only [List.map_cons, Json.patch]
    rw [Json.applyOp_key kvs k op (hl op (by simp)), hg]
    simp only [Option.some_bind]
    cases happ : Json.applyOp c op with
    | none => simp [happ, Json.patch]
    | some c' =>
      simp only [happ, Option.map_some', Option.some_bind]
      rw [ih (objSet kvs k c') c' (fun op h => hl op (by simp [h]))
        (objSet_sorted _ _ _ hs) (objGet_objSet_self _ _ _)]
      cases Json.patch c' L <;> simp [objSet_objSet]

theorem Json.patch_shift_idx (i : Nat) (L : List DiffOp) :
    ∀ (zs : List Json) (c : Json),
      (∀ op ∈ L, op.liftable) →
      zs.get? i = some c →
      Json.patch (.arr zs) (L.map (DiffOp.shiftPath [.idx i]))
        = (Json.patch c L).map fun c' => .arr (zs.set i c') := by
  induction L with
  | nil =>
    intro zs c _ hg
    simp [Json.patch, list_set_get_self zs i c hg]
  | cons op L ih =>
    intro zs c hl hg
    simp only [List.map_cons, Json.patch]
    rw [Json.applyOp_idx zs i op (hl op (by simp)), hg]
    simp only [Option.some_bind]
    cases happ : Json.applyOp c op with
    | none => simp [happ, Json.patch]
    | some c' =>
      simp only [happ, Option.map_some', Option.some_bind]
      have hlen : i < zs.length := by
        by_contra hh
        rw [List.get?_eq_none.mpr (by omega)] at hg
        simp at hg
      rw [ih (zs.set i c') c' (fun op h => hl op (by simp [h]))
        (list_get?_set_self zs i c' hlen)]
      cases Json.patch c' L <;> simp [List.set_set]

theorem Json.applyOp_obj_key_shape (kvs : List (String × Json)) (op : DiffOp)
    (k' : String) (q : List PTok) (hpath : op.path = .key k' :: q) (r : Json)
    (h : Json.applyOp (.obj kvs) op = some r) : ∃ res, r = .obj res := by
  cases op with
  | add p v =>
    simp only [DiffOp.path] at hpath
    subst hpath
    cases q with
    | nil =>
      simp only [Json.applyOp, Json.addAt] at h
      exact ⟨_, (Option.some_inj.mp h).symm⟩
    | cons t q' =>
      simp only [Json.applyOp, Json.addAt, Option.bind_eq_some, Option.map_eq_some'] at h
      obtain ⟨c, hc, c', hc', hr⟩ := h
      exact ⟨_, hr.symm⟩
  | remove p =>
    simp only [DiffOp.path] at hpath
    subst hpath
    cases q with
    | nil =>
      simp only [Json.applyOp, Json.removeAt] at h
      by_cases hg : (objGet kvs k').isSome
      · rw [if_pos hg] at h
        exact ⟨_, (Option.some_inj.mp h).symm⟩
      · rw [if_neg hg] at h
        simp at h
    | cons t q' =>
      simp only [Json.applyOp, Json.removeAt, Option.bind_eq_some, Option.map_eq_some'] at h
      obtain ⟨c, hc, c', hc', hr⟩ := h
      exact ⟨_, hr.symm⟩
  | replace p v =>
    simp only [DiffOp.path] at hpath
    subst hpath
    simp only [Json.applyOp, Json.replaceAt, Option.bind_eq_some, Option.map_eq_some'] at h
    obtain ⟨c, hc, c', hc', hr⟩ := h
    exact ⟨_, hr.symm⟩

theorem Json.applyOp_obj_cons (k : String) (v : Json) (kvs : List (String × Json))
    (op : DiffOp) (k' : String) (q : List PTok) (hpath : op.path = .key k' :: q)
    (hlt : k < k') (res : List (String × Json))
    (h : Json.applyOp (.obj kvs) op = some (.obj res)) :
    Json.applyOp (.obj ((k, v) :: kvs)) op = some (.obj ((k, v) :: res)) := by
  have hne1 : ¬(k' < k) := fun hh => absurd (lt_trans hlt hh) (lt_irrefl k)
  have hne2 : ¬(k' = k) := fun hh => absurd (hh ▸ hlt) (lt_irrefl k')
  have hne3 : ¬(k = k') := fun hh => hne2 hh.symm
  have f1 : objGet ((k, v) :: kvs) k' = objGet kvs k' := by simp [objGet, hne3]
  have f2 : ∀ w, objSet ((k, v) :: kvs) k' w = (k, v) :: objSet kvs k' w := by
    intro w
    simp [objSet, hne1, hne2]
  have f3 : objErase ((k, v) :: kvs) k' = (k, v) :: objErase kvs k' := by
    simp [objErase, hne3]
  cases op with
  | add p v' =>
    simp only [DiffOp.path] at hpath
    subst hpath
    cases q with
    | nil =>
      simp only [Json.applyOp, Json.addAt, Option.some_inj, Json.obj.injEq] at h ⊢
      rw [f2, h]
    | cons t q' =>
      simp only [Json.applyOp, Json.addAt] at h ⊢
      rw [f1]
      cases hg : objGet kvs k' with
      | none => simp [hg] at h
      | some c =>
        rw [hg] at h
        simp only [Option.some_bind] at h ⊢
        simp only [Option.map_eq_some'] at h
        obtain ⟨c', hc', hr⟩ := h
        rw [hc']
        simp only [Option.map_some', Option.some_inj, f2, Json.obj.injEq] at hr ⊢
        rw [hr]
  | remove p =>
    simp only [DiffOp.path] at hpath
    subst hpath
    cases q with
    | nil =>
      simp only [Json.applyOp, Json.removeAt] at h ⊢
      rw [f1, f3]
      by_cases hg : (objGet kvs k').isSome
      · rw [if_pos hg] at h ⊢
        simp only [Option.some_inj, Json.obj.injEq] at h ⊢
        rw [h]
      · rw [if_neg hg] at h
        simp at h
    | cons t q' =>
      simp only [Json.applyOp, Json.removeAt] at h ⊢
      rw [f1]
      cases hg : objGet kvs k' with
      | none => simp [hg] at h
      | some c =>
        rw [hg] at h
        simp only [Option.some_bind] at h ⊢
        simp only [Option.map_eq_some'] at h
        obtain ⟨c', hc', hr⟩ := h
        rw [hc']
        simp only [Option.map_some', Option.some_inj, f2, Json.obj.injEq] at hr ⊢
        rw [hr]
  | replace p v' =>
    simp only [DiffOp.path] at hpath
    subst hpath
    simp only [Json.applyOp, Json.replaceAt] at h ⊢
    rw [f1]
    cases hg : objGet kvs k' with
    | none => simp [hg] at h
    | some c =>
      rw [hg] at h
      simp only [Option.some_bind] at h ⊢
      simp only [Option.map_eq_some'] at h
      obtain ⟨c', hc', hr⟩ := h
      rw [hc']
      simp only [Option.map_some', Option.some_inj, f2, Json.obj.injEq] at hr ⊢
      rw [hr]

theorem Json.patch_obj_cons (k : String) (v : Json) (L : List DiffOp) :
    ∀ (kvs res : List (String × Json)),
      (∀ op ∈ L, ∃ k' q, op.path = .key k' :: q ∧ k < k') →
      Json.patch (.obj kvs) L = some (.obj res) →
      Json.patch (.obj ((k, v) :: kvs)) L = some (.obj ((k, v) :: res)) := by
  induction L with
  | nil =>
    intro kvs res _ h
    simp only [Json.patch, Option.some_inj, Json.obj.injEq] at h ⊢
    rw [h]
  | cons op L ih =>
    intro kvs res hL h
    simp only [Json.patch] at h ⊢
    cases happ : Json.applyOp (.obj kvs) op with
    | none => rw [happ] at h; simp at h
    | some r =>
      rw [happ] at h
      simp only [Option.some_bind] at h
      obtain ⟨k', q, hpath, hlt⟩ := hL op (by simp)
      obtain ⟨res1, hr⟩ := Json.applyOp_obj_key_shape kvs op k' q hpath r happ
      subst hr
      rw [Json.applyOp_obj_cons k v kvs op k' q hpath hlt res1 happ]
      simp only [Option.some_bind]
      exact ih res1 res (fun op hop => hL op (by simp [hop])) h

theorem objMerge1_mem_key (ys : List (String × Json)) (xs : List (String × Json))
    (kv : String × Json) (h : kv ∈ objMerge1 xs ys) : ∃ v, (kv.1, v) ∈ xs := by
  induction xs with
  | nil => simp [objMerge1] at h
  | cons kv0 xs' ih =>
    obtain ⟨k0, v0⟩ := kv0
    cases hget : objGet ys k0 with
    | some w0 =>
      simp only [objMerge1, List.filterMap_cons, hget, Option.map_some'] at h
      rcases List.mem_cons.mp h with h | h
      · subst h
        exact ⟨v0, by simp⟩
      · obtain ⟨v, hv⟩ := ih h
        exact ⟨v, by simp [hv]⟩
    | none =>
      simp only [objMerge1, List.filterMap_cons, hget, Option.map_none'] at h
      obtain ⟨v, hv⟩ := ih h
      exact ⟨v, by simp [hv]⟩

theorem objRestrict_mem (ys xs : List (String × Json)) (kv : String × Json)
    (h : kv ∈ objRestrict ys xs) : kv ∈ ys := by
  induction ys with
  | nil => simp [objRestrict] at h
  | cons kv0 ys' ih =>
    by_cases hget : (objGet xs kv0.1).isSome
    · simp only [objRestrict, List.filterMap_cons, hget, if_pos] at h
      rcases List.mem_cons.mp h with h | h
      · simp [h]
      · simp [ih h]
    · simp only [objRestrict, List.filterMap_cons, hget] at h
      simp only [Bool.false_eq_true, if_false] at h
      simp [ih h]

theorem objMerge1_sorted (ys : List (String × Json)) (xs : List (String × Json))
    (hxs : List.Pairwise (fun a b : String × Json => a.1 < b.1) xs) :
    List.Pairwise (fun a b : String × Json => a.1 < b.1) (objMerge1 xs ys) := by
  induction xs with
  | nil => simp [objMerge1]
  | cons kv0 xs' ih =>
    obtain ⟨k0, v0⟩ := kv0
    obtain ⟨hhead, htail⟩ := List.pairwise_cons.mp hxs
    cases hget : objGet ys k0 with
    | some w0 =>
      simp only [objMerge1, List.filterMap_cons, hget, Option.map_some']
      refine List.pairwise_cons.mpr ⟨?_, ih htail⟩
      intro b hb
      obtain ⟨v, hv⟩ := objMerge1_mem_key ys xs' b hb
      exact hhead (b.1, v) hv
    | none =>
      simp only [objMerge1, List.filterMap_cons, hget, Option.map_none']
      exact ih htail

theorem objRestrict_sorted (ys xs : List (String × Json))
    (hys : List.Pairwise (fun a b : String × Json => a.1 < b.1) ys) :
    List.Pairwise (fun a b : String × Json => a.1 < b.1) (objRestrict ys xs) := by
  induction ys with
  | nil => simp [objRestrict]
  | cons kv0 ys' ih =>
    obtain ⟨hhead, htail⟩ := List.pairwise_cons.mp hys
    by_cases hget : (objGet xs kv0.1).isSome
    · simp only [objRestrict, List.filterMap_cons, hget, if_pos]
      refine List.pairwise_cons.mpr ⟨?_, ih htail⟩
      intro b hb
      exact hhead b (objRestrict_mem ys' xs b hb)
    · simp only [objRestrict, List.filterMap_cons, hget]
      simp only [Bool.false_eq_true, if_false]
      exact ih htail

theorem objGet_objMerge1 (ys : List (String × Json)) (xs : List (String × Json))
    (k : String)
    (hxs : List.Pairwise (fun a b : String × Json => a.1 < b.1) xs) :
    objGet (objMerge1 xs ys) k
      = match objGet xs k with
        | some _ => objGet ys k
        | none => none := by
  induction xs with
  | nil => simp [objMerge1, objGet]
  | cons kv0 xs' ih =>
    obtain ⟨k0, v0⟩ := kv0
    obtain ⟨hhead, htail⟩ := List.pairwise_cons.mp hxs
    have hsome : ∀ w0, objGet ys k0 = some w0 →
        objMerge1 ((k0, v0) :: xs') ys = (k0, w0) :: objMerge1 xs' ys := by
      intro w0 hget
      simp [objMerge1, List.filterMap_cons, hget]
    have hnone : objGet ys k0 = none →
        objMerge1 ((k0, v0) :: xs') ys = objMerge1 xs' ys := by
      intro hget
      simp [objMerge1, List.filterMap_cons, hget]
    by_cases hk : k0 = k
    · subst hk
      cases hget : objGet ys k0 with
      | some w0 =>
        rw [hsome w0 hget]
        simp [objGet, hget]
      | none =>
        rw [hnone hget]
        have hnn : objGet (objMerge1 xs' ys) k0 = none := by
          apply objGet_eq_none
          intro kv hkv heq
          obtain ⟨v, hv⟩ := objMerge1_mem_key ys xs' kv hkv
          have := hhead (kv.1, v) hv
          simp [heq] at this
        simp [objGet, hnn, hget]
    · cases hget : objGet ys k0 with
      | some w0 =>
        rw [hsome w0 hget]
        simp [objGet, hk, ih htail]
      | none =>
        rw [hnone hget]
        simp [objGet, hk, ih htail]

theorem objGet_objRestrict (xs : List (String × Json)) (ys : List (String × Json))
    (k : String)
    (hys : List.Pairwise (fun a b : String × Json => a.1 < b.1) ys) :
    objGet (objRestrict ys xs) k
      = if (objGet xs k).isSome then objGet ys k else none := by
  induction ys with
  | nil => simp [objRestrict, objGet]
  | cons kv0 ys' ih =>
    obtain ⟨k0, w0⟩ := kv0
    obtain ⟨hhead, htail⟩ := List.pairwise_cons.mp hys
    have hsome : (objGet xs k0).isSome = true →
        objRestrict ((k0, w0) :: ys') xs = (k0, w0) :: objRestrict ys' xs := by
      intro hget
      simp [objRestrict, List.filterMap_cons, hget]
    have hnone : ¬((objGet xs k0).isSome = true) →
        objRestrict ((k0, w0) :: ys') xs = objRestrict ys' xs := by
      intro hget
      simp [objRestrict, List.filterMap_cons, hget]
    by_cases hk : k0 = k
    · subst hk
      by_cases hget : (objGet xs k0).isSome
      · rw [hsome hget]
        simp [objGet, hget]
      · rw [hnone hget]
        have hnn : objGet (objRestrict ys' xs) k0 = none := by
          apply objGet_eq_none
          intro kv hkv heq
          have := hhead kv (objRestrict_mem ys' xs kv hkv)
          simp [heq] at this
        simp [objGet, hnn, hget]
    · by_cases hget : (objGet xs k0).isSome
      · rw [hsome hget]
        simp [objGet, hk, ih htail]
      · rw [hnone hget]
        simp [objGet, hk, ih htail]

theorem objMerge1_eq_objRestrict (xs ys : List (String × Json))
    (hxs : List.Pairwise (fun a b : String × Json => a.1 < b.1) xs)
    (hys : List.Pairwise (fun a b : String × Json => a.1 < b.1) ys) :
    objMerge1 xs ys = objRestrict ys xs := by
  refine sorted_ext _ _ (objMerge1_sorted ys xs hxs) (objRestrict_sorted ys xs hys)
    fun k => ?_
  rw [objGet_objMerge1 ys xs k hxs, objGet_objRestrict xs ys k hys]
  cases objGet xs k <;> simp

theorem Json.diffObj1_spec (ys : List (String × Json)) :
    ∀ (xs : List (String × Json)),
      List.Pairwise (fun a b : String × Json => a.1 < b.1) xs →
      (∀ kv ∈ xs, ∀ w : Json, (kv : String × Json).2.wf = true → w.wf = true →
        Json.patch (kv : String × Json).2 (Json.diff (kv : String × Json).2 w []) = some w) →
      Json.wfFields xs = true →
      (∀ k w, objGet ys k = some w → w.wf = true) →
      Json.patch (.obj xs) (Json.diffObj1 xs ys []) = some (.obj (objMerge1 xs ys)) := by
  intro xs
  induction xs with
  | nil =>
    intro _ _ _ _
    simp [Json.diffObj1, Json.patch, objMerge1]
  | cons kv xs' ih =>
    intro hs hIH hwf hysw
    obtain ⟨k, v⟩ := kv
    obtain ⟨hhead, htail⟩ := List.pairwise_cons.mp hs
    have hvwf : v.wf = true := by
      simpa using Json.wfFields_mem _ (k, v) hwf (by simp)
    have hwft : Json.wfFields xs' = true := by
      simp only [Json.wfFields, Bool.and_eq_true] at hwf
      exact hwf.2
    have htail2 : Json.patch (.obj xs') (Json.diffObj1 xs' ys []) = some (.obj (objMerge1 xs' ys)) :=
      ih htail (fun kv h w => hIH kv (by simp [h]) w) hwft hysw
    have hops : ∀ op ∈ Json.diffObj1 xs' ys [], ∃ k' q, op.path = .key k' :: q ∧ k < k' := by
      intro op hop
      obtain ⟨kv, hkv, q, hq⟩ := Json.diffObj1_shape ys xs' op hop
      exact ⟨kv.1, q, hq, hhead kv hkv⟩
    cases hget : objGet ys k with
    | some w =>
      have hunfold : Json.diffObj1 ((k, v) :: xs') ys []
          = Json.diff v w ([] ++ [PTok.key k]) ++ Json.diffObj1 xs' ys [] := by
        simp [Json.diffObj1, hget]
      have hblock : Json.patch (.obj ((k, v) :: xs')) (Json.diff v w ([] ++ [PTok.key k]))
          = some (.obj ((k, w) :: xs')) := by
        rw [List.nil_append, Json.diff_shift v w [PTok.key k]]
        rw [Json.patch_shift_key k (Json.diff v w []) ((k, v) :: xs') v
          (fun op hop => Json.diff_mem_liftable v w op hop) hs (by simp [objGet])]
        rw [hIH (k, v) (by simp) w hvwf (hysw k w hget)]
        simp [objSet_head_eq]
      have hmerge : objMerge1 ((k, v) :: xs') ys = (k, w) :: objMerge1 xs' ys := by
        simp [objMerge1, List.filterMap_cons, hget]
      rw [hunfold, Json.patch_append, hblock]
      simp only [Option.some_bind]
      rw [hmerge]
      exact Json.patch_obj_cons k w (Json.diffObj1 xs' ys []) xs' (objMerge1 xs' ys) hops htail2
    | none =>
      have hunfold : Json.diffObj1 ((k, v) :: xs') ys []
          = DiffOp.remove ([] ++ [PTok.key k]) :: Json.diffObj1 xs' ys [] := by
        simp [Json.diffObj1, hget]
      have hrm : Json.applyOp (.obj ((k, v) :: xs')) (.remove [PTok.key k]) = some (.obj xs') := by
        simp [Json.applyOp, Json.removeAt, objGet, objErase]
      have hmerge : objMerge1 ((k, v) :: xs') ys = objMerge1 xs' ys := by
        simp [objMerge1, List.filterMap_cons, hget]
      rw [hunfold]
      simp only [Json.patch, List.nil_append, hrm, Option.some_bind]
      rw [hmerge]
      exact htail2

theorem Json.diffObj2_spec (xs : List (String × Json)) :
    ∀ (ys : List (String × Json)),
      List.Pairwise (fun a b : String × Json => a.1 < b.1) ys →
      Json.patch (.obj (objRestrict ys xs)) (Json.diffObj2 xs ys []) = some (.obj ys) := by
  intro ys
  induction ys with
  | nil =>
    intro _
    simp [objRestrict, Json.diffObj2, Json.patch]
  | cons kv ys' ih =>
    intro hs
    obtain ⟨k, w⟩ := kv
    obtain ⟨hhead, htail⟩ := List.pairwise_cons.mp hs
    have hops : ∀ op ∈ Json.diffObj2 xs ys' [], ∃ k' q, op.path = .key k' :: q ∧ k < k' := by
      intro op hop
      obtain ⟨kv, hkv, hnone, hopEq⟩ := Json.diffObj2_shape xs [] ys' op hop
      subst hopEq
      exact ⟨kv.1, [], by simp [DiffOp.path], hhead kv hkv⟩
    by_cases hget : (objGet xs k).isSome
    · have hrestrict : objRestrict ((k, w) :: ys') xs = (k, w) :: objRestrict ys' xs := by
        simp [objRestrict, List.filterMap_cons, hget]
      have hunfold : Json.diffObj2 xs ((k, w) :: ys') [] = Json.diffObj2 xs ys' [] := by
        simp [Json.diffObj2, hget]
      rw [hrestrict, hunfold]
      exact Json.patch_obj_cons k w _ _ _ hops (ih htail)
    · have hrestrict : objRestrict ((k, w) :: ys') xs = objRestrict ys' xs := by
        simp [objRestrict, List.filterMap_cons, hget]
      have hunfold : Json.diffObj2 xs ((k, w) :: ys') []
          = DiffOp.add ([] ++ [PTok.key k]) w :: Json.diffObj2 xs ys' [] := by
        simp [Json.diffObj2, hget]
      have hadd : Json.applyOp (.obj (objRestrict ys' xs)) (.add [PTok.key k] w)
          = some (.obj ((k, w) :: objRestrict ys' xs)) := by
        simp only [Json.applyOp, Json.addAt]
        rw [objSet_prepend]
        intro kv hkv
        exact hhead kv (objRestrict_mem ys' xs kv hkv)
      rw [hrestrict, hunfold]
      simp only [Json.patch, List.nil_append, hadd, Option.some_bind]
      exact Json.patch_obj_cons k w _ _ _ hops (ih htail)

theorem eraseIdx_append_last {α : Type} (l : List α) (a : α) :
    (l ++ [a]).eraseIdx l.length = l := by
  induction l with
  | nil => simp [List.eraseIdx]
  | cons x l ih => simp [List.eraseIdx, ih]

theorem list_get?_append_length {α : Type} (l r : List α) (a : α) :
    (l ++ a :: r).get? l.length = some a := by
  induction l with
  | nil => simp [List.get?]
  | cons x l ih => simpa [List.get?] using ih

theorem list_set_append_length {α : Type} (l r : List α) (a b : α) :
    (l ++ a :: r).set l.length b = l ++ b :: r := by
  induction l with
  | nil => simp [List.set]
  | cons x l ih => simp [List.set, ih]

theorem Json.diffArrRemoves_succ (i n : Nat) :
    Json.diffArrRemoves [] i (i + (n + 1))
      = DiffOp.remove [PTok.idx (i + n)] :: Json.diffArrRemoves [] i (i + n) := by
  simp only [Json.diffArrRemoves]
  rw [show i + (n + 1) - i = n + 1 from by omega, show i + n - i = n from by omega]
  rw [List.range'_concat]
  simp

theorem Json.diffArrRemoves_spec (done xs : List Json) :
    Json.patch (.arr (done ++ xs))
      (Json.diffArrRemoves [] done.length (done.length + xs.length)) = some (.arr done) := by
  induction xs using List.reverseRecOn with
  | nil => simp [Json.diffArrRemoves, Json.patch]
  | append_singleton front last ih =>
    rw [show (front ++ [last]).length = front.length + 1 from by simp]
    rw [Json.diffArrRemoves_succ done.length front.length]
    have hrm : Json.applyOp (.arr (done ++ (front ++ [last])))
        (.remove [PTok.idx (done.length + front.length)]) = some (.arr (done ++ front)) := by
      simp only [Json.applyOp, Json.removeAt]
      rw [if_pos (by simp)]
      rw [show done ++ (front ++ [last]) = (done ++ front) ++ [last] from by simp]
      rw [show done.length + front.length = (done ++ front).length from by simp]
      rw [eraseIdx_append_last]
    simp only [Json.patch, hrm, Option.some_bind]
    exact ih

theorem Json.diffArrAdds_spec (ys : List Json) : ∀ (done : List Json),
    Json.patch (.arr done) (Json.diffArrAdds [] ys) = some (.arr (done ++ ys)) := by
  induction ys with
  | nil =>
    intro done
    simp [Json.diffArrAdds, Json.patch]
  | cons y ys ih =>
    intro done
    have hunfold : Json.diffArrAdds [] (y :: ys)
        = DiffOp.add ([] ++ [PTok.append]) y :: Json.diffArrAdds [] ys := by
      simp [Json.diffArrAdds]
    have hadd : Json.applyOp (.arr done) (.add [PTok.append] y)
        = some (.arr (done ++ [y])) := by
      simp [Json.applyOp, Json.addAt]
    rw [hunfold]
    simp only [Json.patch, List.nil_append, hadd, Option.some_bind]
    rw [ih (done ++ [y])]
    simp

theorem Json.diffArr_spec : ∀ (xs ys done : List Json),
    (∀ x ∈ xs, ∀ w : Json, x.wf = true → w.wf = true →
      Json.patch x (Json.diff x w []) = some w) →
    Json.wfList xs = true → Json.wfList ys = true →
    Json.patch (.arr (done ++ xs)) (Json.diffArr xs ys [] done.length)
      = some (.arr (done ++ ys)) := by
  intro xs
  induction xs with
  | nil =>
    intro ys done _ _ _
    have hunfold : Json.diffArr [] ys [] done.length
        = Json.diffArrRemoves [] done.length (done.length + 0) ++ Json.diffArrAdds [] ys := by
      simp [Json.diffArr, Json.diffArrRemoves]
    rw [hunfold, Json.patch_append]
    rw [show Json.diffArrRemoves [] done.length (done.length + 0) = [] from by
      simp [Json.diffArrRemoves]]
    rw [show done ++ ([] : List Json) = done from by simp]
    simp only [Json.patch, Option.some_bind]
    exact Json.diffArrAdds_spec ys done
  | cons x xs' ih =>
    intro ys done hIH hwfx hwfy
    simp only [Json.wfList, Bool.and_eq_true] at hwfx
    obtain ⟨hxwf, hxs'wf⟩ := hwfx
    cases ys with
    | nil =>
      have hunfold : Json.diffArr (x :: xs') [] [] done.length
          = Json.diffArrRemoves [] done.length (done.length + (x :: xs').length)
            ++ Json.diffArrAdds [] [] := by
        simp [Json.diffArr, Json.diffArrAdds]
      rw [hunfold]
      rw [show Json.diffArrAdds [] ([] : List Json) = [] from rfl]
      rw [List.append_nil]
      rw [Json.diffArrRemoves_spec done (x :: xs')]
      simp
    | cons y ys' =>
      simp only [Json.wfList, Bool.and_eq_true] at hwfy
      obtain ⟨hywf, hys'wf⟩ := hwfy
      have hunfold : Json.diffArr (x :: xs') (y :: ys') [] done.length
          = Json.diff x y ([] ++ [PTok.idx done.length])
            ++ Json.diffArr xs' ys' [] (done.length + 1) := by
        simp [Json.diffArr]
      rw [hunfold, Json.patch_append]
      have hblock : Json.patch (.arr (done ++ x :: xs'))
          (Json.diff x y ([] ++ [PTok.idx done.length])) = some (.arr (done ++ y :: xs')) := by
        rw [List.nil_append, Json.diff_shift x y [PTok.idx done.length]]
        rw [Json.patch_shift_idx done.length (Json.diff x y []) (done ++ x :: xs') x
          (fun op hop => Json.diff_mem_liftable x y op hop) (list_get?_append_length done xs' x)]
        rw [hIH x (by simp) y hxwf hywf]
        simp [list_set_append_length]
      rw [hblock]
      simp only [Option.some_bind]
      have htail := ih ys' (done ++ [y]) (fun x hx => hIH x (by simp [hx])) hxs'wf hys'wf
      rw [show (done ++ [y]).length = done.length + 1 from by simp] at htail
      rw [show (done ++ [y]) ++ xs' = done ++ y :: xs' from by simp] at htail
      rw [show (done ++ [y]) ++ ys' = done ++ y :: ys' from by simp] at htail
      exact htail

theorem Json.patch_diff (a b : Json) (ha : a.wf = true) (hb : b.wf = true) :
    Json.patch a (Json.diff a b []) = some b := by
  by_cases heq : a = b
  · subst heq
    rw [Json.diff_self]
    rfl
  · cases a <;> cases b <;>
      first
      | exact absurd rfl heq
      | exact (by
          rename_i xs ys
          rw [Json.diff_arr _ _ _ heq]
          have hspec := Json.diffArr_spec xs ys []
            (fun x hx w hxw hww => Json.patch_diff x w hxw hww)
            (Json.wf_arr_elems xs ha) (Json.wf_arr_elems ys hb)
          simpa using hspec)
      | exact (by
          rename_i xs ys
          rw [Json.diff_obj _ _ _ heq, Json.patch_append]
          have h1 := Json.diffObj1_spec ys xs (Json.wf_obj_pairwise xs ha)
            (fun kv hkv w hkw hww => Json.patch_diff kv.2 w hkw hww)
            (Json.wf_obj_fields xs ha)
            (fun k w hg => objGet_wf ys k w hb hg)
          rw [h1]
          simp only [Option.some_bind]
          rw [objMerge1_eq_objRestrict xs ys (Json.wf_obj_pairwise xs ha)
            (Json.wf_obj_pairwise ys hb)]
          exact Json.diffObj2_spec xs ys (Json.wf_obj_pairwise ys hb))
      | exact (by
          rw [Json.diff_replace _ _ _ heq (by simp) (by simp)]
          simp [Json.patch, Json.applyOp, Json.replaceAt])
termination_by sizeOf a
decreasing_by
  all_goals
    simp_wf
    subst_vars
    first
    | (have h1 := List.sizeOf_lt_of_mem hx
       simp only [Json.arr.sizeOf_spec]
       omega)
    | (have h1 := List.sizeOf_lt_of_mem hkv
       obtain ⟨k1, v1⟩ := kv
       simp only [Prod.mk.sizeOf_spec] at h1
       simp only [Json.obj.sizeOf_spec]
       omega)

theorem objGet_of_mem_sorted (l : List (String × Json)) (kv : String × Json)
    (hs : List.Pairwise (fun a b : String × Json => a.1 < b.1) l)
    (hm : kv ∈ l) : objGet l kv.1 = some kv.2 := by
  induction l with
  | nil => simp at hm
  | cons kv0 l ih =>
    obtain ⟨k0, v0⟩ := kv0
    obtain ⟨hhead, htail⟩ := List.pairwise_cons.mp hs
    rcases List.mem_cons.mp hm with hm | hm
    · subst hm
      simp [objGet]
    · have hlt := hhead kv hm
      have hne : ¬(k0 = kv.1) := by
        intro h
        rw [h] at hlt
        exact absurd hlt (lt_irrefl _)
      simp [objGet, hne, ih htail hm]

theorem Json.diffObj1_nil_inv (ys : List (String × Json)) :
    ∀ (xs : List (String × Json)), Json.diffObj1 xs ys [] = [] →
    ∀ kv ∈ xs, ∃ w, objGet ys (kv : String × Json).1 = some w
      ∧ Json.diff (kv : String × Json).2 w [] = [] := by
  intro xs
  induction xs with
  | nil => intro _ kv hm; simp at hm
  | cons kv0 xs' ih =>
    intro h kv hm
    obtain ⟨k, v⟩ := kv0
    cases hget : objGet ys k with
    | none =>
      rw [show Json.diffObj1 ((k, v) :: xs') ys []
        = DiffOp.remove ([] ++ [PTok.key k]) :: Json.diffObj1 xs' ys [] from by
          simp [Json.diffObj1, hget]] at h
      simp at h
    | some w =>
      rw [show Json.diffObj1 ((k, v) :: xs') ys []
        = Json.diff v w ([] ++ [PTok.key k]) ++ Json.diffObj1 xs' ys [] from by
          simp [Json.diffObj1, hget]] at h
      rw [List.append_eq_nil] at h
      obtain ⟨h1, h2⟩ := h
      rcases List.mem_cons.mp hm with hm | hm
      · subst hm
        refine ⟨w, hget, ?_⟩
        rw [List.nil_append, Json.diff_shift v w [PTok.key k]] at h1
        simpa using h1
      · exact ih h2 kv hm

theorem Json.diffObj2_nil_inv (xs : List (String × Json)) :
    ∀ (ys : List (String × Json)), Json.diffObj2 xs ys [] = [] →
    ∀ kv ∈ ys, (objGet xs (kv : String × Json).1).isSome = true := by
  intro ys
  induction ys with
  | nil => intro _ kv hm; simp at hm
  | cons kv0 ys' ih =>
    intro h kv hm
    obtain ⟨k, w⟩ := kv0
    by_cases hget : (objGet xs k).isSome
    · rw [show Json.diffObj2 xs ((k, w) :: ys') [] = Json.diffObj2 xs ys' [] from by
        simp [Json.diffObj2, hget]] at h
      rcases List.mem_cons.mp hm with hm | hm
      · subst hm
        exact hget
      · exact ih h kv hm
    · rw [show Json.diffObj2 xs ((k, w) :: ys') []
        = DiffOp.add ([] ++ [PTok.key k]) w :: Json.diffObj2 xs ys' [] from by
          simp [Json.diffObj2, hget]] at h
      simp at h

theorem Json.diffArr_ne_nil : ∀ (xs ys : List Json) (i : Nat),
    (∀ x ∈ xs, ∀ y : Json, y.wf = true → x ≠ y → Json.diff x y [] ≠ []) →
    Json.wfList ys = true →
    xs ≠ ys → Json.diffArr xs ys [] i ≠ [] := by
  intro xs
  induction xs with
  | nil =>
    intro ys i _ _ hne
    cases ys with
    | nil => exact absurd rfl hne
    | cons y ys' => simp [Json.diffArr, Json.diffArrRemoves, Json.diffArrAdds]
  | cons x xs' ih =>
    intro ys i hIH hwfy hne
    cases ys with
    | nil =>
      simp [Json.diffArr, Json.diffArrRemoves, Json.diffArrAdds]
    | cons y ys' =>
      simp only [Json.wfList, Bool.and_eq_true] at hwfy
      rw [show Json.diffArr (x :: xs') (y :: ys') [] i
        = Json.diff x y ([] ++ [PTok.idx i]) ++ Json.diffArr xs' ys' [] (i + 1) from by
          simp [Json.diffArr]]
      intro hempty
      rw [List.append_eq_nil] at hempty
      obtain ⟨h1, h2⟩ := hempty
      by_cases hxy : x = y
      · subst hxy
        have hne' : xs' ≠ ys' := by
          intro h
          exact hne (by rw [h])
        exact ih ys' (i + 1) (fun x hx => hIH x (by simp [hx])) hwfy.2 hne' h2
      · rw [List.nil_append, Json.diff_shift x y [PTok.idx i]] at h1
        simp only [List.map_eq_nil_iff] at h1
        exact hIH x (by simp) y hwfy.1 hxy h1

theorem Json.diff_ne_nil (a b : Json) (ha : a.wf = true) (hb : b.wf = true)
    (hne : a ≠ b) : Json.diff a b [] ≠ [] := by
  cases a <;> cases b <;>
    first
    | exact absurd rfl hne
    | exact (by
        rename_i xs ys
        rw [Json.diff_arr _ _ _ hne]
        have hxsys : xs ≠ ys := by
          intro h
          exact hne (by rw [h])
        exact Json.diffArr_ne_nil xs ys 0
          (fun x hx y hyw hxyne =>
            Json.diff_ne_nil x y (Json.wfList_mem xs x (Json.wf_arr_elems xs ha) hx) hyw hxyne)
          (Json.wf_arr_elems ys hb) hxsys)
    | exact (by
        rename_i xs ys
        rw [Json.diff_obj _ _ _ hne]
        intro hempty
        rw [List.append_eq_nil] at hempty
        obtain ⟨h1, h2⟩ := hempty
        have hxsys : xs ≠ ys := by
          intro h
          exact hne (by rw [h])
        apply hxsys
        refine sorted_ext xs ys (Json.wf_obj_pairwise xs ha) (Json.wf_obj_pairwise ys hb)
          fun k => ?_
        cases hgx : objGet xs k with
        | some v =>
          have hmem := objGet_mem xs k v hgx
          obtain ⟨w, hwget, hwdiff⟩ := Json.diffObj1_nil_inv ys xs h1 (k, v) hmem
          have hvw : v = w := by
            by_contra hvw
            exact Json.diff_ne_nil v w
              (Json.wfFields_mem xs (k, v) (Json.wf_obj_fields xs ha) hmem)
              (objGet_wf ys k w hb hwget) hvw hwdiff
          rw [hwget, hvw]
        | none =>
          cases hgy : objGet ys k with
          | none => rfl
          | some w =>
            have hmem := objGet_mem ys k w hgy
            have := Json.diffObj2_nil_inv xs ys h2 (k, w) hmem
            rw [hgx] at this
            simp at this)
    | exact (by
        rw [Json.diff_replace _ _ _ hne (by simp) (by simp)]
        simp)
termination_by sizeOf a
decreasing_by
  all_goals
    simp_wf
    subst_vars
    first
    | (have h1 := List.sizeOf_lt_of_mem hx
       simp only [Json.arr.sizeOf_spec]
       omega)
    | (have h1 := List.sizeOf_lt_of_mem hmem
       simp only [Prod.mk.sizeOf_spec] at h1
       simp only [Json.obj.sizeOf_spec]
       omega)

theorem objGet_append (l1 l2 : List (String × Json)) (k : String) :
    objGet (l1 ++ l2) k
      = match objGet l1 k with
        | some v => some v
        | none => objGet l2 k := by
  induction l1 with
  | nil => simp [objGet]
  | cons kv l1 ih =>
    obtain ⟨k0, v0⟩ := kv
    by_cases h : k0 = k
    · simp [objGet, h]
    · simp [objGet, h, ih]

theorem sorted_lookup_split (xs : List (String × Json)) (K : String) (v : Json)
    (hs : List.Pairwise (fun a b : String × Json => a.1 < b.1) xs)
    (hg : objGet xs K = some v) :
    ∃ l1 l2, xs = l1 ++ (K, v) :: l2
      ∧ (∀ kv ∈ l1, (kv : String × Json).1 < K)
      ∧ (∀ kv ∈ l2, K < (kv : String × Json).1) := by
  induction xs with
  | nil => simp [objGet] at hg
  | cons kv0 xs' ih =>
    obtain ⟨k0, v0⟩ := kv0
    obtain ⟨hhead, htail⟩ := List.pairwise_cons.mp hs
    by_cases h : k0 = K
    · subst h
      simp [objGet] at hg
      subst hg
      exact ⟨[], xs', by simp, by simp, fun kv hkv => hhead kv hkv⟩
    · simp [objGet, h] at hg
      obtain ⟨l1, l2, heq, hl1, hl2⟩ := ih htail hg
      refine ⟨(k0, v0) :: l1, l2, by simp [heq], ?_, hl2⟩
      intro kv hkv
      rcases List.mem_cons.mp hkv with hkv | hkv
      · subst hkv
        have : (K, v) ∈ xs' := by
          rw [heq]
          simp
        exact hhead (K, v) this
      · exact hl1 kv hkv

theorem Json.diffObj1_append (ys : List (String × Json)) (p : List PTok) :
    ∀ (xs1 xs2 : List (String × Json)),
    Json.diffObj1 (xs1 ++ xs2) ys p = Json.diffObj1 xs1 ys p ++ Json.diffObj1 xs2 ys p := by
  intro xs1
  induction xs1 with
  | nil => intro xs2; simp [Json.diffObj1]
  | cons kv xs1' ih =>
    intro xs2
    obtain ⟨k, v⟩ := kv
    cases hget : objGet ys k with
    | some w =>
      rw [show Json.diffObj1 (((k, v) :: xs1') ++ xs2) ys p
        = Json.diff v w (p ++ [PTok.key k]) ++ Json.diffObj1 (xs1' ++ xs2) ys p from by
          simp [Json.diffObj1, hget]]
      rw [show Json.diffObj1 ((k, v) :: xs1') ys p
        = Json.diff v w (p ++ [PTok.key k]) ++ Json.diffObj1 xs1' ys p from by
          simp [Json.diffObj1, hget]]
      rw [ih xs2, List.append_assoc]
    | none =>
      rw [show Json.diffObj1 (((k, v) :: xs1') ++ xs2) ys p
        = DiffOp.remove (p ++ [PTok.key k]) :: Json.diffObj1 (xs1' ++ xs2) ys p from by
          simp [Json.diffObj1, hget]]
      rw [show Json.diffObj1 ((k, v) :: xs1') ys p
        = DiffOp.remove (p ++ [PTok.key k]) :: Json.diffObj1 xs1' ys p from by
          simp [Json.diffObj1, hget]]
      rw [ih xs2]
      rfl

theorem Json.diffObj1_nil_of_same (ys : List (String × Json)) (p : List PTok) :
    ∀ (xs : List (String × Json)),
    (∀ kv ∈ xs, objGet ys (kv : String × Json).1 = some (kv : String × Json).2) →
    Json.diffObj1 xs ys p = [] := by
  intro xs
  induction xs with
  | nil => intro _; simp [Json.diffObj1]
  | cons kv xs' ih =>
    intro h
    obtain ⟨k, v⟩ := kv
    have hget : objGet ys k = some v := h (k, v) (by simp)
    rw [show Json.diffObj1 ((k, v) :: xs') ys p
      = Json.diff v v (p ++ [PTok.key k]) ++ Json.diffObj1 xs' ys p from by
        simp [Json.diffObj1, hget]]
    rw [Json.diff_self, ih (fun kv hkv => h kv (by simp [hkv]))]
    rfl

theorem Json.diffObj2_nil_of_present (xs : List (String × Json)) (p : List PTok) :
    ∀ (ys : List (String × Json)),
    (∀ kv ∈ ys, (objGet xs (kv : String × Json).1).isSome = true) →
    Json.diffObj2 xs ys p = [] := by
  intro ys
  induction ys with
  | nil => intro _; simp [Json.diffObj2]
  | cons kv ys' ih =>
    intro h
    obtain ⟨k, w⟩ := kv
    have hget : (objGet xs k).isSome = true := h (k, w) (by simp)
    rw [show Json.diffObj2 xs ((k, w) :: ys') p = Json.diffObj2 xs ys' p from by
      simp [Json.diffObj2, hget]]
    exact ih (fun kv hkv => h kv (by simp [hkv]))

theorem Json.diff_obj_single_key (xs ys : List (String × Json)) (K : String) (v w : Json)
    (hxs : List.Pairwise (fun a b : String × Json => a.1 < b.1) xs)
    (hys : List.Pairwise (fun a b : String × Json => a.1 < b.1) ys)
    (hgx : objGet xs K = some v) (hgy : objGet ys K = some w)
    (hoff : ∀ k, k ≠ K → objGet xs k = objGet ys k) (hvw : v ≠ w) :
    Json.diff (.obj xs) (.obj ys) [] = (Json.diff v w []).map (DiffOp.shiftPath [.key K]) := by
  obtain ⟨l1, l2, hxeq, hl1, hl2⟩ := sorted_lookup_split xs K v hxs hgx
  obtain ⟨m1, m2, hyeq, hm1, hm2⟩ := sorted_lookup_split ys K w hys hgy
  have hl1s : List.Pairwise (fun a b : String × Json => a.1 < b.1) l1 := by
    rw [hxeq] at hxs
    exact hxs.sublist (List.sublist_append_left _ _)
  have hm1s : List.Pairwise (fun a b : String × Json => a.1 < b.1) m1 := by
    rw [hyeq] at hys
    exact hys.sublist (List.sublist_append_left _ _)
  have hl2s : List.Pairwise (fun a b : String × Json => a.1 < b.1) l2 := by
    rw [hxeq] at hxs
    exact hxs.sublist ((List.sublist_cons_self _ _).trans (List.sublist_append_right _ _))
  have hm2s : List.Pairwise (fun a b : String × Json => a.1 < b.1) m2 := by
    rw [hyeq] at hys
    exact hys.sublist ((List.sublist_cons_self _ _).trans (List.sublist_append_right _ _))
  have hlow : ∀ (l : List (String × Json)), (∀ kv ∈ l, K < (kv : String × Json).1) →
      ∀ k, ¬(K < k) → objGet l k = none := by
    intro l hl k hk
    apply objGet_eq_none
    intro kv hkv heq
    exact hk (heq ▸ hl kv hkv)
  have hhigh : ∀ (l : List (String × Json)), (∀ kv ∈ l, (kv : String × Json).1 < K) →
      ∀ k, ¬(k < K) → objGet l k = none := by
    intro l hl k hk
    apply objGet_eq_none
    intro kv hkv heq
    exact hk (heq ▸ hl kv hkv)
  have hx_low : ∀ k, k < K → objGet xs k = objGet l1 k := by
    intro k hk
    have hKk : ¬(K = k) := fun h => absurd (h ▸ hk) (lt_irrefl _)
    rw [hxeq, objGet_append]
    cases hgl : objGet l1 k with
    | some u => rfl
    | none =>
      rw [show objGet ((K, v) :: l2) k = objGet l2 k from by simp [objGet, hKk]]
      rw [hlow l2 hl2 k (fun h => absurd (lt_trans hk h) (lt_irrefl _))]
  have hy_low : ∀ k, k < K → objGet ys k = objGet m1 k := by
    intro k hk
    have hKk : ¬(K = k) := fun h => absurd (h ▸ hk) (lt_irrefl _)
    rw [hyeq, objGet_append]
    cases hgl : objGet m1 k with
    | some u => rfl
    | none =>
      rw [show objGet ((K, w) :: m2) k = objGet m2 k from by simp [objGet, hKk]]
      rw [hlow m2 hm2 k (fun h => absurd (lt_trans hk h) (lt_irrefl _))]
  have hx_high : ∀ k, K < k → objGet xs k = objGet l2 k := by
    intro k hk
    have hKk : ¬(K = k) := fun h => absurd (h ▸ hk) (lt_irrefl _)
    rw [hxeq, objGet_append]
    rw [hhigh l1 hl1 k (fun h => absurd (lt_trans hk h) (lt_irrefl _))]
    simp [objGet, hKk]
  have hy_high : ∀ k, K < k → objGet ys k = objGet m2 k := by
    intro k hk
    have hKk : ¬(K = k) := fun h => absurd (h ▸ hk) (lt_irrefl _)
    rw [hyeq, objGet_append]
    rw [hhigh m1 hm1 k (fun h => absurd (lt_trans hk h) (lt_irrefl _))]
    simp [objGet, hKk]
  have hm1eq : l1 = m1 := by
    refine sorted_ext l1 m1 hl1s hm1s fun k => ?_
    by_cases hk : k < K
    · have hkK : k ≠ K := fun h => absurd (h ▸ hk) (lt_irrefl _)
      rw [← hx_low k hk, ← hy_low k hk]
      exact hoff k hkK
    · rw [hhigh l1 hl1 k hk, hhigh m1 hm1 k hk]
  have hm2eq : l2 = m2 := by
    refine sorted_ext l2 m2 hl2s hm2s fun k => ?_
    by_cases hk : K < k
    · have hkK : k ≠ K := fun h => absurd (h ▸ hk) (lt_irrefl _)
      rw [← hx_high k hk, ← hy_high k hk]
      exact hoff k hkK
    · rw [hlow l2 hl2 k hk, hlow m2 hm2 k hk]
  subst hm1eq
  subst hm2eq
  have hnexy : Json.obj xs ≠ .obj ys := by
    intro h
    have hxy : xs = ys := by injection h
    rw [hxy, hgy] at hgx
    exact hvw (Option.some_inj.mp hgx).symm
  have hmem_get_x : ∀ kv ∈ xs, objGet xs (kv : String × Json).1 = some (kv : String × Json).2 :=
    fun kv hkv => objGet_of_mem_sorted xs kv hxs hkv
  have hmem_get_y : ∀ kv ∈ ys, objGet ys (kv : String × Json).1 = some (kv : String × Json).2 :=
    fun kv hkv => objGet_of_mem_sorted ys kv hys hkv
  have hsame1 : ∀ kv ∈ l1, objGet ys (kv : String × Json).1 = some (kv : String × Json).2 :=
    fun kv hkv => hmem_get_y kv (by rw [hyeq]; exact List.mem_append_left _ hkv)
  have hsame2 : ∀ kv ∈ l2, objGet ys (kv : String × Json).1 = some (kv : String × Json).2 :=
    fun kv hkv => hmem_get_y kv (by rw [hyeq]; simp [hkv])
  have hpresent : ∀ kv ∈ ys, (objGet xs (kv : String × Json).1).isSome = true := by
    intro kv hkv
    rw [hyeq] at hkv
    rcases List.mem_append.mp hkv with hkv | hkv
    · rw [hmem_get_x kv (by rw [hxeq]; exact List.mem_append_left _ hkv)]
      rfl
    · rcases List.mem_cons.mp hkv with hkv | hkv
      · rw [show (kv : String × Json).1 = K from by rw [hkv], hgx]
        rfl
      · rw [hmem_get_x kv (by rw [hxeq]; simp [hkv])]
        rfl
  rw [Json.diff_obj _ _ _ hnexy]
  rw [Json.diffObj2_nil_of_present xs [] ys hpresent, List.append_nil]
  conv =>
    lhs
    rw [hxeq]
  rw [Json.diffObj1_append ys [] l1 ((K, v) :: l2)]
  rw [Json.diffObj1_nil_of_same ys [] l1 hsame1, List.nil_append]
  rw [show Json.diffObj1 ((K, v) :: l2) ys []
    = Json.diff v w ([] ++ [PTok.key K]) ++ Json.diffObj1 l2 ys [] from by
      simp [Json.diffObj1, hgy]]
  rw [Json.diffObj1_nil_of_same ys [] l2 hsame2, List.append_nil]
  rw [List.nil_append, Json.diff_shift v w [PTok.key K]]

theorem Json.diffObj1_mem_of_get (ys : List (String × Json)) :
    ∀ (xs : List (String × Json)) (k : String) (v w : Json),
    objGet xs k = some v → objGet ys k = some w → Json.diff v w [] ≠ [] →
    ∃ op ∈ Json.diffObj1 xs ys [], ∃ q, op.path = .key k :: q := by
  intro xs
  induction xs with
  | nil => intro k v w hx _ _; simp [objGet] at hx
  | cons kv0 xs' ih =>
    intro k v w hx hy hd
    obtain ⟨k0, v0⟩ := kv0
    by_cases h0 : k0 = k
    · subst h0
      simp [objGet] at hx
      subst hx
      rw [show Json.diffObj1 ((k0, v0) :: xs') ys []
        = Json.diff v0 w ([] ++ [PTok.key k0]) ++ Json.diffObj1 xs' ys [] from by
          simp [Json.diffObj1, hy]]
      rw [List.nil_append, Json.diff_shift v0 w [PTok.key k0]]
      cases hD : Json.diff v0 w [] with
      | nil => exact absurd hD hd
      | cons o D' =>
        refine ⟨DiffOp.shiftPath [PTok.key k0] o, ?_, o.path, ?_⟩
        · simp [hD]
        · simp [DiffOp.shiftPath_path]
    · simp [objGet, h0] at hx
      obtain ⟨op, hmem, q, hq⟩ := ih k v w hx hy hd
      refine ⟨op, ?_, q, hq⟩
      cases hget : objGet ys k0 with
      | some w0 =>
        rw [show Json.diffObj1 ((k0, v0) :: xs') ys []
          = Json.diff v0 w0 ([] ++ [PTok.key k0]) ++ Json.diffObj1 xs' ys [] from by
            simp [Json.diffObj1, hget]]
        exact List.mem_append_right _ hmem
      | none =>
        rw [show Json.diffObj1 ((k0, v0) :: xs') ys []
          = DiffOp.remove ([] ++ [PTok.key k0]) :: Json.diffObj1 xs' ys [] from by
            simp [Json.diffObj1, hget]]
        simp [hmem]

theorem Json.diffObj1_mem_remove (ys : List (String × Json)) :
    ∀ (xs : List (String × Json)) (k : String) (v : Json),
    objGet xs k = some v → objGet ys k = none →
    DiffOp.remove [PTok.key k] ∈ Json.diffObj1 xs ys [] := by
  intro xs
  induction xs with
  | nil => intro k v hx _; simp [objGet] at hx
  | cons kv0 xs' ih =>
    intro k v hx hy
    obtain ⟨k0, v0⟩ := kv0
    by_cases h0 : k0 = k
    · subst h0
      rw [show Json.diffObj1 ((k0, v0) :: xs') ys []
        = DiffOp.remove ([] ++ [PTok.key k0]) :: Json.diffObj1 xs' ys [] from by
          simp [Json.diffObj1, hy]]
      simp
    · simp [objGet, h0] at hx
      have hmem := ih k v hx hy
      cases hget : objGet ys k0 with
      | some w0 =>
        rw [show Json.diffObj1 ((k0, v0) :: xs') ys []
          = Json.diff v0 w0 ([] ++ [PTok.key k0]) ++ Json.diffObj1 xs' ys [] from by
            simp [Json.diffObj1, hget]]
        exact List.mem_append_right _ hmem
      | none =>
        rw [show Json.diffObj1 ((k0, v0) :: xs') ys []
          = DiffOp.remove ([] ++ [PTok.key k0]) :: Json.diffObj1 xs' ys [] from by
            simp [Json.diffObj1, hget]]
        simp [hmem]

theorem Json.diffObj2_mem_add (xs : List (String × Json)) :
    ∀ (ys : List (String × Json)) (k : String) (w : Json),
    objGet ys k = some w → objGet xs k = none →
    DiffOp.add [PTok.key k] w ∈ Json.diffObj2 xs ys [] := by
  intro ys
  induction ys with
  | nil => intro k w hy _; simp [objGet] at hy
  | cons kv0 ys' ih =>
    intro k w hy hx
    obtain ⟨k0, w0⟩ := kv0
    by_cases h0 : k0 = k
    · subst h0
      simp [objGet] at hy
      subst hy
      have hget : ¬((objGet xs k0).isSome = true) := by simp [hx]
      rw [show Json.diffObj2 xs ((k0, w0) :: ys') []
        = DiffOp.add ([] ++ [PTok.key k0]) w0 :: Json.diffObj2 xs ys' [] from by
          simp [Json.diffObj2, hget]]
      simp
    · simp [objGet, h0] at hy
      have hmem := ih k w hy hx
      by_cases hget : (objGet xs k0).isSome
      · rw [show Json.diffObj2 xs ((k0, w0) :: ys') [] = Json.diffObj2 xs ys' [] from by
          simp [Json.diffObj2, hget]]
        exact hmem
      · rw [show Json.diffObj2 xs ((k0, w0) :: ys') []
          = DiffOp.add ([] ++ [PTok.key k0]) w0 :: Json.diffObj2 xs ys' [] from by
            simp [Json.diffObj2, hget]]
        simp [hmem]

theorem two_mem_le_length {α : Type} (L : List α) (a b : α) (ha : a ∈ L) (hb : b ∈ L)
    (hne : a ≠ b) : 2 ≤ L.length := by
  cases L with
  | nil => simp at ha
  | cons x L' =>
    cases L' with
    | nil =>
      simp at ha hb
      subst ha
      subst hb
      exact absurd rfl hne
    | cons y L'' => simp [Nat.succ_le_succ, Nat.le_add_left]

theorem exists_diff_key (xs ys : List (String × Json)) (K : String)
    (hxs : List.Pairwise (fun a b : String × Json => a.1 < b.1) xs)
    (hys : List.Pairwise (fun a b : String × Json => a.1 < b.1) ys)
    (hne : objErase xs K ≠ objErase ys K) :
    ∃ k, k ≠ K ∧ objGet xs k ≠ objGet ys k := by
  by_contra h
  push_neg at h
  apply hne
  refine sorted_ext _ _ (objErase_sorted _ _ hxs) (objErase_sorted _ _ hys) fun k => ?_
  by_cases hk : k = K
  · subst hk
    rw [objGet_objErase_self _ _ hxs, objGet_objErase_self _ _ hys]
  · rw [objGet_objErase_ne _ _ _ hk, objGet_objErase_ne _ _ _ hk]
    exact h k hk

theorem Json.diff_obj_material_ge_two (xs ys : List (String × Json)) (K : String)
    (a b : Int)
    (hxs : (Json.obj xs).wf = true) (hys : (Json.obj ys).wf = true)
    (hgx : objGet xs K = some (.num a)) (hgy : objGet ys K = some (.num b)) (hab : a ≠ b)
    (hmat : objErase xs K ≠ objErase ys K) :
    2 ≤ (Json.diff (.obj xs) (.obj ys) []).length := by
  have hab' : Json.num a ≠ .num b := by
    intro h
    injection h with h
    exact hab h
  have hnexy : Json.obj xs ≠ .obj ys := by
    intro h
    have hxy : xs = ys := by injection h
    rw [hxy, hgy] at hgx
    exact hab' (Option.some_inj.mp hgx).symm
  rw [Json.diff_obj _ _ _ hnexy]
  have hdK : Json.diff (Json.num a) (.num b) [] ≠ [] := by
    rw [Json.diff_replace _ _ _ hab' (by simp) (by simp)]
    simp
  obtain ⟨op1, hop1mem, q1, hq1⟩ := Json.diffObj1_mem_of_get ys xs K _ _ hgx hgy hdK
  obtain ⟨k, hkK, hkne⟩ := exists_diff_key xs ys K (Json.wf_obj_pairwise xs hxs)
    (Json.wf_obj_pairwise ys hys) hmat
  have hdistinct : ∀ (op2 : DiffOp) (q2 : List PTok), op2.path = .key k :: q2 → op1 ≠ op2 := by
    intro op2 q2 hq2 heq
    rw [heq, hq2] at hq1
    have : K = k := by
      have := List.head_eq_of_cons_eq hq1.symm
      injection this
    exact hkK this.symm
  cases hx2 : objGet xs k with
  | some v' =>
    cases hy2 : objGet ys k with
    | some w' =>
      have hvw : v' ≠ w' := by
        intro h
        rw [hx2, hy2, h] at hkne
        exact hkne rfl
      have hd2 : Json.diff v' w' [] ≠ [] :=
        Json.diff_ne_nil v' w' (objGet_wf xs k v' hxs hx2) (objGet_wf ys k w' hys hy2) hvw
      obtain ⟨op2, hop2mem, q2, hq2⟩ := Json.diffObj1_mem_of_get ys xs k _ _ hx2 hy2 hd2
      exact two_mem_le_length _ op1 op2 (List.mem_append_left _ hop1mem)
        (List.mem_append_left _ hop2mem) (hdistinct op2 q2 hq2)
    | none =>
      have hop2mem := Json.diffObj1_mem_remove ys xs k v' hx2 hy2
      exact two_mem_le_length _ op1 _ (List.mem_append_left _ hop1mem)
        (List.mem_append_left _ hop2mem) (hdistinct _ [] (by simp [DiffOp.path]))
  | none =>
    cases hy2 : objGet ys k with
    | some w' =>
      have hop2mem := Json.diffObj2_mem_add xs ys k w' hy2 hx2
      exact two_mem_le_length _ op1 _ (List.mem_append_left _ hop1mem)
        (List.mem_append_right _ hop2mem) (hdistinct _ [] (by simp [DiffOp.path]))
    | none =>
      rw [hx2, hy2] at hkne
      exact absurd rfl hkne

theorem vk_lt_a : VERSION_KEY < "a" := by
  rw [String.lt_iff_toList_lt]
  decide

theorem vk_lt_a_data : VERSION_KEY.data < ['a'] := by decide

theorem Server.update_ver_le (s : Server) (enc : Option Json) :
    s.ver ≤ (Server.Update s enc).srv.ver := by
  rcases Server.update_cases s enc with ⟨h, _⟩ | ⟨j, next, _, _, _, heq⟩
  · rw [h]
  · rw [heq]
    simp

theorem Server.runUpdates_ver_le (s : Server) (es : List (Option Json)) :
    s.ver ≤ (Server.runUpdates s es).ver := by
  induction es generalizing s with
  | nil => exact le_refl _
  | cons e es ih =>
    exact le_trans (Server.update_ver_le s e) (ih (Server.Update s e).srv)

theorem Server.update_gate (s : Server) (j next : Json)
    (hInv : s.Inv) (hwf : s.state.wf = true) (hjwf : j.wf = true)
    (hset : j.setKey VERSION_KEY (.num (s.ver + 1)) = some next) :
    next.wf = true
    ∧ next.getKey VERSION_KEY = some (.num (s.ver + 1))
    ∧ (1 < (Json.diff s.state next []).length ↔ next.stripVersion ≠ s.state.stripVersion) := by
  have hnwf : next.wf = true := Json.setKey_wf j _ _ next hset hjwf rfl
  have hnget : next.getKey VERSION_KEY = some (.num (s.ver + 1)) :=
    Json.getKey_setKey j _ _ next hset
  refine ⟨hnwf, hnget, ?_⟩
  obtain ⟨hrep, hsget⟩ := hInv
  -- the committed state is an object carrying the version field
  cases hst : s.state with
  | obj xs =>
    rw [hst] at hsget hwf
    simp only [Json.getKey] at hsget
    -- the tentative state is an object carrying the stamped version field
    cases hnx : next with
    | obj ys =>
      rw [hnx] at hnget hnwf
      simp only [Json.getKey] at hnget
      have hxs := Json.wf_obj_pairwise xs hwf
      have hys := Json.wf_obj_pairwise ys hnwf
      have hvers : (s.ver : Int) ≠ s.ver + 1 := by omega
      simp only [Json.stripVersion]
      constructor
      · intro hlen hstrip
        have hstrip' : objErase ys VERSION_KEY = objErase xs VERSION_KEY := by
          injection hstrip
        have hoff : ∀ k, k ≠ VERSION_KEY → objGet xs k = objGet ys k := by
          intro k hk
          rw [← objGet_objErase_ne xs VERSION_KEY k hk,
            ← objGet_objErase_ne ys VERSION_KEY k hk, hstrip']
        have hsingle := Json.diff_obj_single_key xs ys VERSION_KEY
          (.num s.ver) (.num (s.ver + 1)) hxs hys hsget hnget hoff
          (by intro h; injection h with h; exact hvers h)
        rw [hsingle] at hlen
        rw [Json.diff_replace (Json.num s.ver) (.num (s.ver + 1)) []
          (by intro h; injection h with h; exact hvers h) (by simp) (by simp)] at hlen
        simp at hlen
      · intro hstrip
        have hmat : objErase xs VERSION_KEY ≠ objErase ys VERSION_KEY := by
          intro h
          exact hstrip (by rw [h])
        have := Json.diff_obj_material_ge_two xs ys VERSION_KEY s.ver (s.ver + 1)
          hwf hnwf hsget hnget hvers hmat
        omega
    | null => rw [hnx] at hnget; simp [Json.getKey] at hnget
    | bool _ => rw [hnx] at hnget; simp [Json.getKey] at hnget
    | num _ => rw [hnx] at hnget; simp [Json.getKey] at hnget
    | str _ => rw [hnx] at hnget; simp [Json.getKey] at hnget
    | arr _ => rw [hnx] at hnget; simp [Json.getKey] at hnget
  | null => rw [hst] at hsget; simp [Json.getKey] at hsget
  | bool _ => rw [hst] at hsget; simp [Json.getKey] at hsget
  | num _ => rw [hst] at hsget; simp [Json.getKey] at hsget
  | str _ => rw [hst] at hsget; simp [Json.getKey] at hsget
  | arr _ => rw [hst] at hsget; simp [Json.getKey] at hsget

/-- C1: the served version is non-decreasing across any sequence of `Update`
calls (and across a single call), and a single `Update` whose encode and
version stamp succeed advances the version by exactly 1 exactly when the
tentative state materially differs (structurally, apart from the version
field) from the previously committed state; when the diff against the
tentative state contains at most the version-field change (length at most
one), the call is a complete no-op and the version is unchanged. -/
theorem server_version_monotonic_exact (s : Server) (j next : Json)
    (es : List (Option Json)) (e : Option Json)
    (hInv : s.Inv) (hwf : s.state.wf = true) (hjwf : j.wf = true)
    (hset : j.setKey VERSION_KEY (.num (s.ver + 1)) = some next) :
    s.ver ≤ (Server.runUpdates s es).ver
    ∧ s.ver ≤ (Server.Update s e).srv.ver
    ∧ ((Server.Update s (some j)).srv.ver = s.ver + 1
        ↔ next.stripVersion ≠ s.state.stripVersion)
    ∧ ((Json.diff s.state next []).length ≤ 1 →
        Server.Update s (some j) = ⟨s, [], false⟩) := by
  obtain ⟨hnwf, hnget, hiff⟩ := Server.update_gate s j next hInv hwf hjwf hset
  have hunfold : Server.Update s (some j)
      = if 1 < (Json.diff s.state next []).length then
          ⟨⟨next, s.ver + 1, next.dump⟩, [Json.dumpDiff (Json.diff s.state next [])], false⟩
        else ⟨s, [], false⟩ := by
    simp [Server.Update, hset]
  refine ⟨Server.runUpdates_ver_le s es, Server.update_ver_le s e, ?_, ?_⟩
  · by_cases hlen : 1 < (Json.diff s.state next []).length
    · rw [hunfold, if_pos hlen]
      simpa using hiff.mp hlen
    · rw [hunfold, if_neg hlen]
      simp only []
      constructor
      · intro h
        exact absurd h (by omega)
      · intro hmat
        exact absurd (hiff.mpr hmat) hlen
  · intro hle
    rw [hunfold, if_neg (by omega)]

/-- C1 witness: one committed update (`{"a": 1}` to `{"a": 2}`) from a
freshly constructed server; the material difference makes the version
advance by exactly 1. -/
theorem server_version_monotonic_exact_witness :
    (0 : Int) ≤ (Server.runUpdates ⟨.obj [(VERSION_KEY, .num 0), ("a", .num 1)], 0,
        (Json.obj [(VERSION_KEY, .num 0), ("a", .num 1)]).dump⟩
        [some (.obj [("a", .num 2)])]).ver
    ∧ (0 : Int) ≤ (Server.Update ⟨.obj [(VERSION_KEY, .num 0), ("a", .num 1)], 0,
        (Json.obj [(VERSION_KEY, .num 0), ("a", .num 1)]).dump⟩
        (some (.obj [("a", .num 2)]))).srv.ver
    ∧ ((Server.Update ⟨.obj [(VERSION_KEY, .num 0), ("a", .num 1)], 0,
        (Json.obj [(VERSION_KEY, .num 0), ("a", .num 1)]).dump⟩
        (some (.obj [("a", .num 2)]))).srv.ver = 0 + 1
        ↔ (Json.obj [(VERSION_KEY, .num (0 + 1)), ("a", .num 2)]).stripVersion
            ≠ (Json.obj [(VERSION_KEY, .num 0), ("a", .num 1)]).stripVersion)
    ∧ ((Json.diff (.obj [(VERSION_KEY, .num 0), ("a", .num 1)])
          (.obj [(VERSION_KEY, .num (0 + 1)), ("a", .num 2)]) []).length ≤ 1 →
        Server.Update ⟨.obj [(VERSION_KEY, .num 0), ("a", .num 1)], 0,
          (Json.obj [(VERSION_KEY, .num 0), ("a", .num 1)]).dump⟩
          (some (.obj [("a", .num 2)]))
          = ⟨⟨.obj [(VERSION_KEY, .num 0), ("a", .num 1)], 0,
              (Json.obj [(VERSION_KEY, .num 0), ("a", .num 1)]).dump⟩, [], false⟩) :=
  server_version_monotonic_exact
    ⟨.obj [(VERSION_KEY, .num 0), ("a", .num 1)], 0,
      (Json.obj [(VERSION_KEY, .num 0), ("a", .num 1)]).dump⟩
    (.obj [("a", .num 2)]) (.obj [(VERSION_KEY, .num (0 + 1)), ("a", .num 2)])
    [some (.obj [("a", .num 2)])] (some (.obj [("a", .num 2)]))
    ⟨rfl, by simp [Json.getKey, objGet]⟩
    (by simp [Json.wf, Json.wfFields, keysSorted, vk_lt_a, vk_lt_a_data])
    (by simp [Json.wf, Json.wfFields, keysSorted])
    (by simp [Json.setKey, objSet, vk_lt_a, vk_lt_a_data])

/-- C5: for a committed `Update` from version `v` to `v + 1`, applying the
published diff (the diff of the committed state against the tentative state)
to the state at version `v` reproduces the state at version `v + 1` exactly;
at the snapshot-text level, the snapshot at version `v` is the old state's
text, and the serialized result of applying the diff is exactly the snapshot
at version `v + 1`. -/
theorem server_update_convergence (s : Server) (j next : Json)
    (hInv : s.Inv) (hwf : s.state.wf = true) (hjwf : j.wf = true)
    (hset : j.setKey VERSION_KEY (.num (s.ver + 1)) = some next)
    (hcommit : 1 < (Json.diff s.state next []).length) :
    s.reply = s.state.dump
    ∧ Json.patch s.state (Json.diff s.state next []) = some next
    ∧ Server.Update s (some j)
        = ⟨⟨next, s.ver + 1, next.dump⟩, [Json.dumpDiff (Json.diff s.state next [])], false⟩
    ∧ (Json.patch s.state (Json.diff s.state next [])).map Json.dump
        = some (Server.Update s (some j)).srv.reply := by
  have hnwf : next.wf = true := Json.setKey_wf j _ _ next hset hjwf rfl
  have hp := Json.patch_diff s.state next hwf hnwf
  have hu : Server.Update s (some j)
      = ⟨⟨next, s.ver + 1, next.dump⟩, [Json.dumpDiff (Json.diff s.state next [])], false⟩ := by
    simp [Server.Update, hset, hcommit]
  refine ⟨hInv.1, hp, hu, ?_⟩
  rw [hp, hu]
  rfl

/-- C5 witness: the committed update from `{"a": 1}` at version 0 to
`{"a": 2}` at version 1. -/
theorem server_update_convergence_witness :
    (Json.obj [(VERSION_KEY, .num 0), ("a", .num 1)]).dump
        = (Json.obj [(VERSION_KEY, .num 0), ("a", .num 1)]).dump
    ∧ Json.patch (.obj [(VERSION_KEY, .num 0), ("a", .num 1)])
        (Json.diff (.obj [(VERSION_KEY, .num 0), ("a", .num 1)])
          (.obj [(VERSION_KEY, .num (0 + 1)), ("a", .num 2)]) [])
        = some (.obj [(VERSION_KEY, .num (0 + 1)), ("a", .num 2)])
    ∧ Server.Update ⟨.obj [(VERSION_KEY, .num 0), ("a", .num 1)], 0,
          (Json.obj [(VERSION_KEY, .num 0), ("a", .num 1)]).dump⟩
        (some (.obj [("a", .num 2)]))
        = ⟨⟨.obj [(VERSION_KEY, .num (0 + 1)), ("a", .num 2)], 0 + 1,
            (Json.obj [(VERSION_KEY, .num (0 + 1)), ("a", .num 2)]).dump⟩,
          [Json.dumpDiff (Json.diff (.obj [(VERSION_KEY, .num 0), ("a", .num 1)])
            (.obj [(VERSION_KEY, .num (0 + 1)), ("a", .num 2)]) [])], false⟩
    ∧ (Json.patch (.obj [(VERSION_KEY, .num 0), ("a", .num 1)])
        (Json.diff (.obj [(VERSION_KEY, .num 0), ("a", .num 1)])
          (.obj [(VERSION_KEY, .num (0 + 1)), ("a", .num 2)]) [])).map Json.dump
        = some (Server.Update ⟨.obj [(VERSION_KEY, .num 0), ("a", .num 1)], 0,
            (Json.obj [(VERSION_KEY, .num 0), ("a", .num 1)]).dump⟩
          (some (.obj [("a", .num 2)]))).srv.reply :=
  server_update_convergence
    ⟨.obj [(VERSION_KEY, .num 0), ("a", .num 1)], 0,
      (Json.obj [(VERSION_KEY, .num 0), ("a", .num 1)]).dump⟩
    (.obj [("a", .num 2)]) (.obj [(VERSION_KEY, .num (0 + 1)), ("a", .num 2)])
    ⟨rfl, by simp [Json.getKey, objGet]⟩
    (by simp [Json.wf, Json.wfFields, keysSorted, vk_lt_a, vk_lt_a_data])
    (by simp [Json.wf, Json.wfFields, keysSorted])
    (by simp [Json.setKey, objSet, vk_lt_a, vk_lt_a_data])
    ((Server.update_gate
        ⟨.obj [(VERSION_KEY, .num 0), ("a", .num 1)], 0,
          (Json.obj [(VERSION_KEY, .num 0), ("a", .num 1)]).dump⟩
        (.obj [("a", .num 2)]) (.obj [(VERSION_KEY, .num (0 + 1)), ("a", .num 2)])
        ⟨rfl, by simp [Json.getKey, objGet]⟩
        (by simp [Json.wf, Json.wfFields, keysSorted, vk_lt_a, vk_lt_a_data])
        (by simp [Json.wf, Json.wfFields, keysSorted])
        (by simp [Json.setKey, objSet, vk_lt_a, vk_lt_a_data])).2.2.mpr
      (by simp [Json.stripVersion, objErase]))

/-- C10: when the domain data's encoding already carries the reserved key
`__syncer_data_version`, construction stamps it to 0 and `Update` stamps it
to the tracker's next counter value before diffing (the supplied value is
silently overwritten); consequently an encoding that differs from the
committed state only at the reserved key yields a trivial diff, and `Update`
treats it as unchanged: no commit and no publish. -/
theorem server_reserved_key_overwritten (s : Server) (kvs : List (String × Json)) (w : Json)
    (hInv : s.Inv) (hwf : s.state.wf = true) (hjwf : (Json.obj kvs).wf = true)
    (hhas : objGet kvs VERSION_KEY = some w) :
    (Server.construct (some (.obj kvs))).srv.state.getKey VERSION_KEY = some (.num 0)
    ∧ (∀ next, (Json.obj kvs).setKey VERSION_KEY (.num (s.ver + 1)) = some next →
        next.getKey VERSION_KEY = some (.num (s.ver + 1)))
    ∧ ((Json.obj kvs).stripVersion = s.state.stripVersion →
        (Server.Update s (some (.obj kvs))).srv = s
          ∧ (Server.Update s (some (.obj kvs))).published = []) := by
  refine ⟨?_, fun next hset => Json.getKey_setKey _ _ _ next hset, ?_⟩
  · simp [Server.construct, Json.setKey, Json.getKey, objGet_objSet_self]
  · intro hstrip
    have hset : (Json.obj kvs).setKey VERSION_KEY (.num (s.ver + 1))
        = some (.obj (objSet kvs VERSION_KEY (.num (s.ver + 1)))) := rfl
    have hstripnext : (Json.obj (objSet kvs VERSION_KEY (.num (s.ver + 1)))).stripVersion
        = (Json.obj kvs).stripVersion := by
      simp only [Json.stripVersion]
      rw [objErase_objSet kvs VERSION_KEY _ (Json.wf_obj_pairwise kvs hjwf)]
    have hgate := Server.update_gate s (.obj kvs) _ hInv hwf hjwf hset
    have hlen : ¬(1 < (Json.diff s.state
        (.obj (objSet kvs VERSION_KEY (.num (s.ver + 1)))) []).length) := by
      intro hlen
      exact (hgate.2.2.mp hlen) (by rw [hstripnext, hstrip])
    constructor <;> simp [Server.Update, hset, hlen]

/-- C10 witness: data whose encoding carries `__syncer_data_version = "boom"`
but otherwise equals the committed state; the stray field is overwritten and
the update is a no-op. -/
theorem server_reserved_key_overwritten_witness :
    (Server.construct (some (.obj [(VERSION_KEY, .str "boom"), ("a", .num 1)]))).srv.state.getKey
        VERSION_KEY = some (.num 0)
    ∧ (∀ next, (Json.obj [(VERSION_KEY, .str "boom"), ("a", .num 1)]).setKey VERSION_KEY
          (.num ((0 : Int) + 1)) = some next →
        next.getKey VERSION_KEY = some (.num ((0 : Int) + 1)))
    ∧ ((Json.obj [(VERSION_KEY, .str "boom"), ("a", .num 1)]).stripVersion
          = (Json.obj [(VERSION_KEY, .num 0), ("a", .num 1)]).stripVersion →
        (Server.Update ⟨.obj [(VERSION_KEY, .num 0), ("a", .num 1)], 0,
            (Json.obj [(VERSION_KEY, .num 0), ("a", .num 1)]).dump⟩
          (some (.obj [(VERSION_KEY, .str "boom"), ("a", .num 1)]))).srv
          = ⟨.obj [(VERSION_KEY, .num 0), ("a", .num 1)], 0,
            (Json.obj [(VERSION_KEY, .num 0), ("a", .num 1)]).dump⟩
          ∧ (Server.Update ⟨.obj [(VERSION_KEY, .num 0), ("a", .num 1)], 0,
              (Json.obj [(VERSION_KEY, .num 0), ("a", .num 1)]).dump⟩
            (some (.obj [(VERSION_KEY, .str "boom"), ("a", .num 1)]))).published = []) :=
  server_reserved_key_overwritten
    ⟨.obj [(VERSION_KEY, .num 0), ("a", .num 1)], 0,
      (Json.obj [(VERSION_KEY, .num 0), ("a", .num 1)]).dump⟩
    [(VERSION_KEY, .str "boom"), ("a", .num 1)] (.str "boom")
    ⟨rfl, by simp [Json.getKey, objGet]⟩
    (by simp [Json.wf, Json.wfFields, keysSorted, vk_lt_a, vk_lt_a_data])
    (by simp [Json.wf, Json.wfFields, keysSorted, vk_lt_a, vk_lt_a_data])
    (by simp [objGet])
